import Mathlib

/-!
# Verification of the `inup` registry-resolution and caching subsystem

A shallow embedding, in Lean 4, of the registry resolution layer of the
`inup` CLI: the persistent disk cache (`src/services/persistent-cache.ts`),
the unified cache manager (`src/services/cache-manager.ts`), the
authoritative npm registry client (`src/services/npm-registry.ts`), and the
jsDelivr CDN client with its retry loop, in-flight coalescing and batch
orchestration (`src/services/jsdelivr-registry.ts`).

Conventions of the embedding:
* JavaScript objects / `Map`s become association lists with first-match
  lookup (`lookupA`), in-place property update (`insertA`) and property
  deletion (`eraseA`).
* `Date.now()` timestamps become a `Nat` parameter `now` (milliseconds);
  `now - ts` uses truncated `Nat` subtraction, which agrees with the JS
  comparisons `now - ts > TTL` / `now - ts < TTL` for `now < ts` as well,
  because both then compare a non-positive value against a positive TTL.
* Network I/O becomes oracle functions passed in as parameters; the file
  system under the cache directory becomes an explicit `CacheFS` value.
  Disk operations that the source guards with try/catch are modelled in
  their failure-free execution; where a claim depends on a failure path
  (corrupt JSON, missing file) the oracle/file-system value expresses it.
* `semver` is an external library; its entry points used by the source
  (`valid`, `coerce`, `major`, comparison) are abstracted as a `SemverApi`
  record, so every theorem quantifies over the library's behaviour.
-/

/-! ## Basic data model (`cache-manager.ts`) -/

/-- `PackageVersionData` from `cache-manager.ts`: the resolved fact about
one package. -/
structure PackageVersionData where
  latestVersion : String
  allVersions : List String
deriving Repr, DecidableEq

/-- The `{latestVersion: 'unknown', allVersions: []}` sentinel used by both
registry clients for packages that could not be resolved. -/
def unknownSentinel : PackageVersionData := ⟨"unknown", []⟩

/-! ## Association lists

JS plain objects and `Map`s keyed by strings. `insertA` updates the first
binding in place or appends a fresh one (property-insertion order), and
`eraseA` models `delete obj[k]` / `Map.delete`. -/

def lookupA {α : Type} (k : String) : List (String × α) → Option α
  | [] => none
  | (k', v) :: rest => if k' = k then some v else lookupA k rest

def insertA {α : Type} (k : String) (v : α) : List (String × α) → List (String × α)
  | [] => [(k, v)]
  | (k', v') :: rest => if k' = k then (k, v) :: rest else (k', v') :: insertA k v rest

def eraseA {α : Type} (k : String) : List (String × α) → List (String × α)
  | [] => []
  | (k', v') :: rest => if k' = k then rest else (k', v') :: eraseA k rest

/-! ## Character-level string helpers

The source uses `String.prototype.trim` and single-character regex
replacement; they are embedded at the level of the character list of the
string, which is extensionally what the JS functions compute. -/

/-- JS whitespace for the purposes of `String.prototype.trim` restricted to
the characters that can occur in registry version fields. -/
def isJsWhitespace (c : Char) : Bool :=
  c = ' ' || c = '\t' || c = '\n' || c = '\r'

/-- `s.trim()` on the character list. -/
def jsTrim (s : String) : String :=
  ⟨((s.data.dropWhile isJsWhitespace).reverse.dropWhile isJsWhitespace).reverse⟩

/-- Digit test for the strict `X.Y.Z` version regex of `npm-registry.ts`. -/
def isDigitChar (c : Char) : Bool := '0' ≤ c && c ≤ '9'

/-- Consume one-or-more digits; returns the remaining characters, or `none`
if no digit is present. Helper for the `/^[0-9]+\.[0-9]+\.[0-9]+$/` test. -/
def chompDigits : List Char → Option (List Char)
  | [] => none
  | c :: rest =>
    if isDigitChar c then
      some (go rest)
    else none
where
  go : List Char → List Char
    | [] => []
    | c :: rest => if isDigitChar c then go rest else c :: rest

/-- The regex `/^[0-9]+\.[0-9]+\.[0-9]+$/` from `npm-registry.ts`: matches
exactly `major.minor.patch` with no pre-release or build suffix. -/
def isStrictVersion (s : String) : Bool :=
  match chompDigits s.data with
  | none => false
  | some r1 =>
    match r1 with
    | '.' :: r1' =>
      match chompDigits r1' with
      | none => false
      | some r2 =>
        match r2 with
        | '.' :: r2' =>
          match chompDigits r2' with
          | none => false
          | some r3 => r3.isEmpty
        | _ => false
    | _ => false

/-- A stable comparison sort standing in for `Array.prototype.sort` with a
caller-supplied comparator (`le a b` = the comparator returned `≤ 0`). -/
def insertOrdered {α : Type} (le : α → α → Bool) (x : α) : List α → List α
  | [] => [x]
  | y :: ys => if le x y then x :: y :: ys else y :: insertOrdered le x ys

def sortBy {α : Type} (le : α → α → Bool) (l : List α) : List α :=
  l.foldr (insertOrdered le) []

/-! ## Persistent cache (`persistent-cache.ts`) -/

/-- On-disk per-package cache file payload (`PackageCacheEntry`). -/
structure PackageCacheEntry where
  latestVersion : String
  allVersions : List String
  timestamp : Nat
deriving Repr, DecidableEq

/-- One index entry: data file name plus write timestamp. -/
structure IndexEntry where
  file : String
  timestamp : Nat
deriving Repr, DecidableEq

/-- The persistent cache index (`CacheIndex`): format version plus the
`entries` object keyed by package name. -/
structure CacheIndex where
  version : Nat
  entries : List (String × IndexEntry)
deriving Repr, DecidableEq

/-- The files under the cache directory.  `index.json` is kept apart from
the per-package data files; for each file we record the result of
`JSON.parse` on its contents (`none` inside the option = the file exists
but its contents do not parse, so reading it throws). -/
structure CacheFS where
  indexFile : Option (Option CacheIndex)
  dataFiles : List (String × Option PackageCacheEntry)
deriving Repr, DecidableEq

/-- The mutable fields of `PersistentCacheManager`: the lazily loaded
in-memory index and the dirty flag. -/
structure CacheState where
  index : Option CacheIndex
  dirty : Bool
deriving Repr, DecidableEq

/-- A freshly constructed `PersistentCacheManager` (index not yet loaded,
not dirty). -/
def CacheState.fresh : CacheState := ⟨none, false⟩

/-- An empty cache directory. -/
def CacheFS.empty : CacheFS := ⟨none, []⟩

def DISK_CACHE_TTL : Nat := 24 * 60 * 60 * 1000

def MAX_CACHE_ENTRIES : Nat := 5000

def CACHE_VERSION : Nat := 1

/-- `Math.floor(MAX_CACHE_ENTRIES * 0.1)`, which evaluates to 500. -/
def EVICT_COUNT : Nat := 500

/-- Scoped-package-safe data file name (`getFilename`): strip one leading
`@` (the regex `/^@/`) and replace every `/` (the regex `/\//g`) with
`__`, then append `.json`. -/
def stripLeadingAt (s : String) : String :=
  match s.data with
  | '@' :: rest => ⟨rest⟩
  | _ => s

def replaceSlashes (s : String) : String :=
  ⟨s.data.foldr (fun c acc => if c = '/' then '_' :: '_' :: acc else c :: acc) []⟩

def getFilename (packageName : String) : String :=
  replaceSlashes (stripLeadingAt packageName) ++ ".json"

/-- `clearCache()`: delete every file in the cache directory, then reset
the in-memory index to an empty, version-tagged one and mark it dirty. -/
def clearCache (_s : CacheState) (_fs : CacheFS) : CacheState × CacheFS :=
  (⟨some ⟨CACHE_VERSION, []⟩, true⟩, ⟨none, []⟩)

/-- `loadIndex()`: return the memoised index, or read `index.json`.  A
version mismatch triggers a full `clearCache()`; a missing or corrupt
index file degrades to a fresh empty index. -/
def loadIndex (s : CacheState) (fs : CacheFS) : CacheIndex × CacheState × CacheFS :=
  match s.index with
  | some idx => (idx, s, fs)
  | none =>
    match fs.indexFile with
    | some (some parsed) =>
      if parsed.version ≠ CACHE_VERSION then
        let cleared := clearCache s fs
        (⟨CACHE_VERSION, []⟩, { cleared.1 with index := some ⟨CACHE_VERSION, []⟩ }, cleared.2)
      else
        (parsed, { s with index := some parsed }, fs)
    | some none => (⟨CACHE_VERSION, []⟩, { s with index := some ⟨CACHE_VERSION, []⟩ }, fs)
    | none => (⟨CACHE_VERSION, []⟩, { s with index := some ⟨CACHE_VERSION, []⟩ }, fs)

/-- `saveIndex()`: write the index to disk when dirty. -/
def saveIndex (s : CacheState) (fs : CacheFS) : CacheState × CacheFS :=
  match s.index, s.dirty with
  | some idx, true => (⟨some idx, false⟩, { fs with indexFile := some (some idx) })
  | _, _ => (s, fs)

/-- `flush()` delegates to `saveIndex()`. -/
def pcFlush (s : CacheState) (fs : CacheFS) : CacheState × CacheFS := saveIndex s fs

/-- `get(packageName)`: TTL check against the index entry, then read of the
per-package data file, self-healing the index on a missing or corrupt
file. -/
def pcGet (packageName : String) (now : Nat) (s : CacheState) (fs : CacheFS) :
    Option PackageVersionData × CacheState × CacheFS :=
  let li := loadIndex s fs
  let index := li.1
  let s1 := li.2.1
  let fs1 := li.2.2
  match lookupA packageName index.entries with
  | none => (none, s1, fs1)
  | some entry =>
    if now - entry.timestamp > DISK_CACHE_TTL then
      (none, ⟨some ⟨index.version, eraseA packageName index.entries⟩, true⟩, fs1)
    else
      match lookupA entry.file fs1.dataFiles with
      | none =>
        (none, ⟨some ⟨index.version, eraseA packageName index.entries⟩, true⟩, fs1)
      | some none =>
        (none, ⟨some ⟨index.version, eraseA packageName index.entries⟩, true⟩, fs1)
      | some (some cached) =>
        (some ⟨cached.latestVersion, cached.allVersions⟩, s1, fs1)

/-- `evictOldest(count)`: sort the index entries by ascending timestamp,
delete the data files of the oldest `count` of them and drop their index
entries. -/
def evictOldest (count : Nat) (s : CacheState) (fs : CacheFS) : CacheState × CacheFS :=
  let li := loadIndex s fs
  let index := li.1
  let fs1 := li.2.2
  let sorted := sortBy (fun a b => a.2.timestamp ≤ b.2.timestamp) index.entries
  let toRemove := sorted.take count
  let dataFiles' := toRemove.foldl (fun files e => eraseA e.2.file files) fs1.dataFiles
  let entries' := toRemove.foldl (fun es e => eraseA e.1 es) index.entries
  (⟨some ⟨index.version, entries'⟩, true⟩, { fs1 with dataFiles := dataFiles' })

/-- `set(packageName, data)`: evict when at capacity, write the data file,
then update the index entry with the current timestamp and mark dirty. -/
def pcSet (packageName : String) (data : PackageVersionData) (now : Nat)
    (s : CacheState) (fs : CacheFS) : CacheState × CacheFS :=
  let li := loadIndex s fs
  let index := li.1
  let s1 := li.2.1
  let fs1 := li.2.2
  let afterEvict :=
    if index.entries.length ≥ MAX_CACHE_ENTRIES then
      evictOldest EVICT_COUNT s1 fs1
    else (s1, fs1)
  let index2 := (loadIndex afterEvict.1 afterEvict.2).1
  let fs2 := afterEvict.2
  let filename := getFilename packageName
  let entry : PackageCacheEntry := ⟨data.latestVersion, data.allVersions, now⟩
  let fs3 : CacheFS := { fs2 with dataFiles := insertA filename (some entry) fs2.dataFiles }
  (⟨some ⟨index2.version, insertA packageName ⟨filename, now⟩ index2.entries⟩, true⟩, fs3)

/-- `getStats().entries`: the number of tracked index entries (the
storage-location string is omitted). -/
def pcStats (s : CacheState) (fs : CacheFS) : Nat × CacheState × CacheFS :=
  let li := loadIndex s fs
  (li.1.entries.length, li.2.1, li.2.2)

/-- The index entries and data files underneath a `set`, after the
possible eviction pass (used only to state `pcSet_eq`). -/
def pcSetBase (s : CacheState) (fs : CacheFS) :
    List (String × IndexEntry) × List (String × Option PackageCacheEntry) :=
  let li := loadIndex s fs
  let index := li.1
  let fs1 := li.2.2
  if index.entries.length ≥ MAX_CACHE_ENTRIES then
    let sorted := sortBy (fun a b => a.2.timestamp ≤ b.2.timestamp) index.entries
    let toRemove := sorted.take EVICT_COUNT
    (toRemove.foldl (fun es e => eraseA e.1 es) index.entries,
     toRemove.foldl (fun files e => eraseA e.2.file files) fs1.dataFiles)
  else (index.entries, fs1.dataFiles)

/-- A cache directory holding one entry for `"x"` written at time 0 (used
by the claim C6 statements). -/
def c6InitialFS : CacheFS :=
  ⟨some (some ⟨1, [("x", ⟨"x.json", 0⟩)]⟩), [("x.json", some ⟨"1.0.0", ["1.0.0"], 0⟩)]⟩

/-! ## Cache manager (`cache-manager.ts`) -/

def CACHE_TTL : Nat := 5 * 60 * 1000

/-- `CacheManager` for `PackageVersionData`: the in-memory tier (data plus
insertion timestamp) in front of the persistent cache state. -/
structure CM where
  memory : List (String × PackageVersionData × Nat)
  disk : CacheState × CacheFS
deriving Repr, DecidableEq

/-- A fresh cache manager over an empty cache directory. -/
def CM.emptyFresh : CM := ⟨[], (CacheState.fresh, CacheFS.empty)⟩

/-- The disk half of `CacheManager.get`: consult the persistent cache and
backfill the memory tier with a fresh timestamp on a hit. -/
def cmGetDisk (cm : CM) (key : String) (now : Nat) : Option PackageVersionData × CM :=
  let d := pcGet key now cm.disk.1 cm.disk.2
  match d.1 with
  | some diskCached =>
    (some diskCached, ⟨insertA key (diskCached, now) cm.memory, (d.2.1, d.2.2)⟩)
  | none => (none, ⟨cm.memory, (d.2.1, d.2.2)⟩)

/-- `CacheManager.get`: memory tier first (valid while
`now - timestamp < ttl`), falling through to the persistent cache. -/
def cmGet (cm : CM) (key : String) (now : Nat) : Option PackageVersionData × CM :=
  match lookupA key cm.memory with
  | some mc =>
    if now - mc.2 < CACHE_TTL then (some mc.1, cm)
    else cmGetDisk cm key now
  | none => cmGetDisk cm key now

/-- `CacheManager.set`: write to memory with the current timestamp and to
the persistent cache unconditionally. -/
def cmSet (cm : CM) (key : String) (data : PackageVersionData) (now : Nat) : CM :=
  ⟨insertA key (data, now) cm.memory, pcSet key data now cm.disk.1 cm.disk.2⟩

/-- `CacheManager.flush` delegates to the persistent cache. -/
def cmFlush (cm : CM) : CM := ⟨cm.memory, pcFlush cm.disk.1 cm.disk.2⟩

/-! ## Authoritative registry client (`npm-registry.ts`) -/

/-- Outcome of the single npm-registry metadata request for one package:
either an HTTP-success response whose body parsed as JSON, carrying the
keys of `data.versions` in order, or any failure (non-ok status, abort on
timeout, network error, JSON parse error) — every failure throws into the
catch of `fetchPackageFromRegistry`. -/
inductive NpmOutcome where
  | success (versionKeys : List String)
  | failure
deriving Repr, DecidableEq

/-- `fetchPackageFromRegistry`: cache manager first; on a miss, one request
against the registry. On success, filter the version keys to strict
`X.Y.Z` releases, sort descending (`le` standing for `semver.rcompare`;
the source sorts the array in place, so the result's `allVersions` is the
sorted array), the first sorted element (if any) is `latestVersion`, and
the result is cached.  On failure, return the unknown sentinel — without
writing it to the cache. -/
def fetchPackageFromRegistry (le : String → String → Bool) (net : String → NpmOutcome)
    (now : Nat) (cm : CM) (packageName : String) : PackageVersionData × CM :=
  let c := cmGet cm packageName now
  match c.1 with
  | some cached => (cached, c.2)
  | none =>
    match net packageName with
    | .failure => (unknownSentinel, c.2)
    | .success versionKeys =>
      let allVersions := versionKeys.filter isStrictVersion
      let sortedVersions := sortBy le allVersions
      let latestVersion := match sortedVersions.head? with | some v => v | none => "unknown"
      let result : PackageVersionData := ⟨latestVersion, sortedVersions⟩
      (result, cmSet c.2 packageName result now)

/-- One step per input package of `getAllPackageData`: fetch, record into
the result map, bump the completed counter, and invoke the progress
callback when present.  The callback is NOT defensively wrapped in
`npm-registry.ts`, so a throwing callback rejects the batch promise
(`Except.error`).  The throw oracle says whether the invocation with the
given 1-based completed count throws. -/
def getAllPackageDataGo (le : String → String → Bool) (net : String → NpmOutcome)
    (now : Nat) (onProgress : Option (Nat → Bool)) :
    List String → CM → Nat → List (String × PackageVersionData) →
      Except Unit (List (String × PackageVersionData) × CM)
  | [], cm, _, acc => .ok (acc, cm)
  | name :: rest, cm, completed, acc =>
    let r := fetchPackageFromRegistry le net now cm name
    let acc' := insertA name r.1 acc
    let completed' := completed + 1
    match onProgress with
    | some throws =>
      if throws completed' then .error ()
      else getAllPackageDataGo le net now onProgress rest r.2 completed' acc'
    | none => getAllPackageDataGo le net now onProgress rest r.2 completed' acc'

/-- `getAllPackageData`: empty input returns immediately; otherwise every
package resolves (packages interact only through the shared cache, so the
concurrent fan-out is sequentialised in input order) and the persistent
cache is flushed once at the end.  A throwing progress callback escapes to
the caller before the flush. -/
def getAllPackageData (le : String → String → Bool) (net : String → NpmOutcome)
    (now : Nat) (onProgress : Option (Nat → Bool)) (packageNames : List String)
    (cm : CM) : Except Unit (List (String × PackageVersionData) × CM) :=
  if packageNames.isEmpty then .ok ([], cm)
  else
    match getAllPackageDataGo le net now onProgress packageNames cm 0 [] with
    | .error e => .error e
    | .ok (res, cm2) => .ok (res, cmFlush cm2)

/-! ## CDN registry client (`jsdelivr-registry.ts`) -/

/-- The `semver` library surface used by the CDN client.  `valid` and
`coerce` return the canonical version string or nothing; `major` reads
the major component of a canonical version; `rcompareLE a b` stands for
`semver.rcompare(a, b) <= 0`, and `localeLE a b` for
`a.localeCompare(b) <= 0` (used only between non-coercible strings). -/
structure SemverApi where
  valid : String → Option String
  coerce : String → Option String
  major : String → Nat
  rcompareLE : String → String → Bool
  localeLE : String → String → Bool

/-- A degenerate instantiation of the semver surface used by concrete
scenarios: nothing is valid or coercible. -/
def svTrivial : SemverApi :=
  ⟨fun _ => none, fun _ => none, fun _ => 0, fun _ _ => true, fun _ _ => true⟩

/-- `toPositiveInteger` over the integer-valued configuration entries
(`Math.floor` of a positive integer is itself). -/
def toPositiveIntegerI (value : Int) : Option Nat :=
  if value ≤ 0 then none else some value.toNat

/-- First-occurrence deduplication (`Array.from(new Set(...))`). -/
def dedupNat (seen : List Nat) : List Nat → List Nat
  | [] => []
  | x :: rest =>
    if seen.contains x then dedupNat seen rest else x :: dedupNat (x :: seen) rest

def DEFAULT_JSDELIVR_RETRY_TIMEOUT_MS : Nat := 2000

/-- `RETRY_TIMEOUTS`: the configured sequence filtered to positive
integers, deduplicated preserving first occurrence, sorted ascending, and
defaulted to `[2000]` when nothing survives. -/
def retryTimeoutsFrom (configured : List Int) : List Nat :=
  let vals := sortBy (fun a b => a ≤ b) (dedupNat [] (configured.filterMap toPositiveIntegerI))
  if vals.isEmpty then [DEFAULT_JSDELIVR_RETRY_TIMEOUT_MS] else vals

/-- Observable outcome of one CDN request attempt (the `undici` call plus
the body read and `JSON.parse`):
* `success versionField` — HTTP 200 whose body parsed; `versionField` is
  `data.version` when that field is a string;
* `httpError statusCode` — a non-200 response (body consumed safely);
* `thrown transient` — the request, body read or JSON parse threw;
  `transient` is the value of `isTimeoutError || isTransientNetworkError`
  for the thrown error. -/
inductive CdnAttemptOutcome where
  | success (versionField : Option String)
  | httpError (statusCode : Nat)
  | thrown (transient : Bool)
deriving Repr, DecidableEq

/-- `isRetryableStatus`: 408, 429 or any 5xx-and-up status. -/
def isRetryableStatus (statusCode : Nat) : Bool :=
  statusCode == 408 || statusCode == 429 || statusCode ≥ 500

/-- What one attempt of the retry loop passes to `request`: the attempt's
timeout is used for both the headers-wait and the body-read phase. -/
structure AttemptRecord where
  headersTimeout : Nat
  bodyTimeout : Nat
deriving Repr, DecidableEq

/-- The retry loop of `fetchPackageJsonFromJsdelivr`, recursing over the
suffix of the timeout sequence not yet attempted (`attemptIdx` counts the
attempts already made; the source retries only while
`attempt < RETRY_TIMEOUTS.length - 1`, i.e. while the suffix has a
successor).  Backoff sleeps change nothing observable here and are
elided.  Returns the fetched version — the trimmed `version` field when
non-empty — and the trace of attempts made. -/
def fetchLoop (net : Nat → CdnAttemptOutcome) :
    Nat → List Nat → Option String × List AttemptRecord
  | _, [] => (none, [])
  | attemptIdx, timeout :: rest =>
    let attempted : AttemptRecord := ⟨timeout, timeout⟩
    match net attemptIdx with
    | .success versionField =>
      let version := jsTrim (versionField.getD "")
      (if version = "" then none else some version, [attempted])
    | .httpError statusCode =>
      if isRetryableStatus statusCode && !rest.isEmpty then
        let r := fetchLoop net (attemptIdx + 1) rest
        (r.1, attempted :: r.2)
      else (none, [attempted])
    | .thrown transient =>
      if transient && !rest.isEmpty then
        let r := fetchLoop net (attemptIdx + 1) rest
        (r.1, attempted :: r.2)
      else (none, [attempted])

/-- `fetchPackageJsonFromJsdelivr(packageName, versionTag)`, as a function
of its per-attempt outcome oracle: run the retry loop from attempt 0. -/
def fetchPackageJsonFromJsdelivr (timeouts : List Nat)
    (net : Nat → CdnAttemptOutcome) : Option String × List AttemptRecord :=
  fetchLoop net 0 timeouts

/-- `toComparableVersion`: `semver.valid`, else `semver.coerce`. -/
def toComparableVersion (sv : SemverApi) (version : String) : Option String :=
  match sv.valid version with
  | some validVersion => some validVersion
  | none => sv.coerce version

/-- `versionIdentity`: the comparable form, or the raw-prefixed string. -/
def versionIdentity (sv : SemverApi) (version : String) : String :=
  match toComparableVersion sv version with
  | some comparable => comparable
  | none => "raw:" ++ version

/-- The comparator of `sortVersionsDescending` in `≤ 0` form: comparables
order by `semver.rcompare`; a comparable sorts before a non-comparable;
two non-comparables fall back to `b.localeCompare(a)`. -/
def versionLE (sv : SemverApi) (a b : String) : Bool :=
  match toComparableVersion sv a, toComparableVersion sv b with
  | some ca, some cb => sv.rcompareLE ca cb
  | some _, none => true
  | none, some _ => false
  | none, none => sv.localeLE b a

/-- The dedup pass of `sortVersionsDescending`: keep the first occurrence
of each version identity. -/
def dedupByIdentity (sv : SemverApi) : List String → List String → List String
  | _, [] => []
  | seen, v :: rest =>
    let idty := versionIdentity sv v
    if seen.contains idty then dedupByIdentity sv seen rest
    else v :: dedupByIdentity sv (idty :: seen) rest

/-- `sortVersionsDescending`: dedupe by identity, then sort with the
comparator. -/
def sortVersionsDescending (sv : SemverApi) (versions : List String) : List String :=
  sortBy (versionLE sv) (dedupByIdentity sv [] versions)

/-- `extractMajorVersion`: `null` on missing/empty (falsy) input or an
uncoercible version, else the decimal string of the coerced major. -/
def extractMajorVersion (sv : SemverApi) (version : Option String) : Option String :=
  match version with
  | none => none
  | some v =>
    if v = "" then none
    else
      match sv.coerce v with
      | none => none
      | some coerced => some (toString (sv.major coerced))

/-- The merge-and-force step of `fetchFreshPackageData`: sort the gathered
versions descending, then force the literal latest-version string into
position 0 when the comparator placed anything else first. -/
def orderedMergedVersions (sv : SemverApi) (latestVersion : String)
    (allVersions : List String) : List String :=
  let sortedVersions := sortVersionsDescending sv allVersions
  if sortedVersions.head? = some latestVersion then sortedVersions
  else latestVersion :: sortedVersions.filter (fun version => version ≠ latestVersion)

/-- Per-package resolution trace: the CDN attempts for the `latest` tag
and for the major tag, and the argument lists of the calls made to the
authoritative batch client. -/
structure ResolveTrace where
  latestAttempts : List AttemptRecord
  majorAttempts : List AttemptRecord
  fallbackCalls : List (List String)
deriving Repr, DecidableEq

/-- `fetchFromNpmFallback`: delegate the package to the authoritative
batch client (with no progress callback, so the inner batch cannot
reject); a non-null result is cached again via the cache manager.  The
result is `null` only if the npm batch map lacked the name. -/
def fetchFromNpmFallback (le : String → String → Bool) (npmNet : String → NpmOutcome)
    (now : Nat) (cm : CM) (packageName : String) :
    Option PackageVersionData × CM × List (List String) :=
  match getAllPackageData le npmNet now none [packageName] cm with
  | .error _ => (none, cm, [[packageName]])
  | .ok (results, cm2) =>
    match lookupA packageName results with
    | some result => (some result, cmSet cm2 packageName result now, [[packageName]])
    | none => (none, cm2, [[packageName]])

/-- `fetchFreshPackageData`: fetch the `latest` tag; on absence delegate
the whole package to the authoritative fallback; otherwise conditionally
fetch the current-version major tag, merge with latest forced first,
cache, and return.  Every callee of the `try` body is total in the
embedding, so the catch-and-fall-back branch of the source is vacuous
here. -/
def fetchFreshPackageData (sv : SemverApi) (timeouts : List Nat)
    (cdnNet : String → Nat → CdnAttemptOutcome)
    (le : String → String → Bool) (npmNet : String → NpmOutcome) (now : Nat)
    (cm : CM) (packageName : String) (currentVersion : Option String) :
    Option PackageVersionData × CM × ResolveTrace :=
  let majorVersion := extractMajorVersion sv currentVersion
  let latest := fetchPackageJsonFromJsdelivr timeouts (cdnNet "latest")
  match latest.1 with
  | none =>
    let fb := fetchFromNpmFallback le npmNet now cm packageName
    (fb.1, fb.2.1, ⟨latest.2, [], fb.2.2⟩)
  | some latestVersion =>
    let latestMajorVersion := extractMajorVersion sv (some latestVersion)
    let shouldFetchMajorVersion : Bool :=
      match majorVersion, latestMajorVersion with
      | none, _ => false
      | some _, none => true
      | some m, some lm => m ≠ lm
    let majorFetch :=
      match majorVersion, shouldFetchMajorVersion with
      | some m, true => fetchPackageJsonFromJsdelivr timeouts (cdnNet m)
      | _, _ => (none, [])
    let allVersions :=
      latestVersion ::
        (match majorFetch.1 with
         | some mv => if mv ≠ latestVersion then [mv] else []
         | none => [])
    let orderedVersions := orderedMergedVersions sv latestVersion allVersions
    let result : PackageVersionData := ⟨latestVersion, orderedVersions⟩
    (some result, cmSet cm packageName result now, ⟨latest.2, majorFetch.2, []⟩)

/-- How one input occurrence of the batch is served. -/
inductive TaskClass where
  | hit (data : PackageVersionData)
  | own
  | joined
deriving Repr, DecidableEq

/-- Phase 1 of the batch call — the synchronous prefix of every
`fetchPackageWithFallback` task.  `Promise.all(packageNames.map(...))`
starts every task before any network response can arrive, and each task's
code up to its first genuine await (the cache-manager lookup and the
in-flight-map check of `getPackageData`) runs synchronously, so the
classification of every occurrence is decided, in input order, before any
resolution completes.  A miss with no in-flight entry makes the
occurrence the owner of its name's single resolution and registers the
name in the in-flight map. -/
def classifyTasks (now : Nat) :
    List String → CM → List String →
      List (String × TaskClass) × CM × List String
  | [], cm, inflight => ([], cm, inflight)
  | name :: rest, cm, inflight =>
    let c := cmGet cm name now
    match c.1 with
    | some data =>
      let r := classifyTasks now rest c.2 inflight
      ((name, .hit data) :: r.1, r.2.1, r.2.2)
    | none =>
      if name ∈ inflight then
        let r := classifyTasks now rest c.2 inflight
        ((name, .joined) :: r.1, r.2.1, r.2.2)
      else
        let r := classifyTasks now rest c.2 (inflight ++ [name])
        ((name, .own) :: r.1, r.2.1, r.2.2)

/-- Phase 2 of the batch call: the owners' `fetchFreshPackageData`
resolutions run.  Distinct names interact only through the shared cache,
so they are sequentialised in first-occurrence order. -/
def resolveOwned (sv : SemverApi) (timeouts : List Nat)
    (cdnNet : String → String → Nat → CdnAttemptOutcome)
    (le : String → String → Bool) (npmNet : String → NpmOutcome) (now : Nat)
    (currentVersions : String → Option String) :
    List String → CM →
      List (String × Option PackageVersionData) × CM × List (String × ResolveTrace)
  | [], cm => ([], cm, [])
  | name :: rest, cm =>
    let r := fetchFreshPackageData sv timeouts (cdnNet name) le npmNet now cm name
      (currentVersions name)
    let rr := resolveOwned sv timeouts cdnNet le npmNet now currentVersions rest r.2.1
    ((name, r.1) :: rr.1, rr.2.1, (name, r.2.2) :: rr.2.2)

/-- The value one occurrence observes: a cache hit returns the cached
data immediately; the owner awaits its own resolution, and every joined
duplicate awaits the same shared promise — all of them read the single
per-name resolution result. -/
def taskValue (resolved : List (String × Option PackageVersionData)) :
    String × TaskClass → Option PackageVersionData
  | (_, .hit data) => some data
  | (name, .own) => (lookupA name resolved).join
  | (name, .joined) => (lookupA name resolved).join

/-- Progress events under a completion schedule: the task completing at
0-based position `k` of the permutation `order` of occurrence indices
reports `(names[i], k + 1, names.length)` — `completedCount` increments
per completion and `total` is always the input length. -/
def progressEvents (names : List String) (order : List Nat) :
    List (String × Nat × Nat) :=
  (List.range order.length).map
    (fun k => (names.getD (order.getD k 0) "", k + 1, names.length))

/-- The progress invocations actually made by `emitProgress`: the wrapper
catches a throwing callback and permanently disables it
(`progressCallback = undefined`) for the remainder of the call; `throws k`
says whether the k-th invocation (0-based) throws. -/
def deliveredProgressGo (throws : Nat → Bool) :
    Nat → List (String × Nat × Nat) → List (String × Nat × Nat)
  | _, [] => []
  | k, e :: rest =>
    if throws k then [e] else e :: deliveredProgressGo throws (k + 1) rest

def deliveredProgress (throws : Nat → Bool)
    (events : List (String × Nat × Nat)) : List (String × Nat × Nat) :=
  deliveredProgressGo throws 0 events

/-- Everything observable about one batch call. -/
structure BatchRun where
  results : List (String × PackageVersionData)
  tasks : List (String × TaskClass)
  resolvedNames : List String
  resolved : List (String × Option PackageVersionData)
  traces : List (String × ResolveTrace)
  progressInvocations : List (String × Nat × Nat)
  cm : CM
deriving Repr, DecidableEq

/-- `getAllPackageDataFromJsdelivr`: empty input returns the empty map
immediately (no callbacks, no flush); otherwise classify all occurrences
(phase 1), run the owners' resolutions (phase 2), give every occurrence
its value and collect the non-null ones into the result map, deliver
progress per the completion schedule `order` (a permutation of occurrence
indices) and the progress-throw oracle, and flush the persistent cache
once at the end. -/
def getAllPackageDataFromJsdelivr (sv : SemverApi) (timeouts : List Nat)
    (cdnNet : String → String → Nat → CdnAttemptOutcome)
    (le : String → String → Bool) (npmNet : String → NpmOutcome) (now : Nat)
    (packageNames : List String) (currentVersions : String → Option String)
    (cm0 : CM) (order : List Nat) (progressThrows : Nat → Bool) : BatchRun :=
  match packageNames with
  | [] => ⟨[], [], [], [], [], [], cm0⟩
  | _ :: _ =>
    let phase1 := classifyTasks now packageNames cm0 []
    let owned := phase1.2.2
    let phase2 := resolveOwned sv timeouts cdnNet le npmNet now currentVersions owned phase1.2.1
    let resolved := phase2.1
    let results := phase1.1.foldl
      (fun m task =>
        match taskValue resolved task with
        | some data => insertA task.1 data m
        | none => m) []
    let events := deliveredProgress progressThrows (progressEvents packageNames order)
    ⟨results, phase1.1, owned, resolved, phase2.2.2, events, cmFlush phase2.2.1⟩

/-! ## Cache-state predicates used by the batch theorems -/

/-- The key is absent from both cache tiers: no memory entry at all, and
no entry in the (to-be-)loaded persistent index.  This is the form of
"miss" that every cache operation on other keys preserves. -/
def notCached (cm : CM) (n : String) : Prop :=
  lookupA n cm.memory = none ∧
  lookupA n ((loadIndex cm.disk.1 cm.disk.2).1).entries = none

/-- Key uniqueness of an association list (automatic for JS objects and
`Map`s, which cannot bind one key twice). -/
def keysUnique {α : Type} (l : List (String × α)) : Prop :=
  (l.map Prod.fst).Nodup

/-- Well-formedness of the cache-manager state w.r.t. JS object key
uniqueness: the persistent index this state will load has unique keys
(automatic in reality, since a JS object cannot bind one key twice). -/
def wfCM (cm : CM) : Prop :=
  keysUnique ((loadIndex cm.disk.1 cm.disk.2).1).entries

/-- The memory tier holds a fresh entry for the key (what a completed
first lookup leaves behind after a hit, at a fixed `now`). -/
def memFresh (cm : CM) (n : String) (v : PackageVersionData) (now : Nat) : Prop :=
  ∃ ts, lookupA n cm.memory = some (v, ts) ∧ now - ts < CACHE_TTL

/-- A stabilised miss at a fixed `now`: any memory entry for the key is
expired, the index is loaded, and it has no entry for the key. -/
def missStable (cm : CM) (n : String) (now : Nat) : Prop :=
  (∀ p, lookupA n cm.memory = some p → ¬ (now - p.2 < CACHE_TTL)) ∧
  (∃ idx, cm.disk.1.index = some idx ∧ lookupA n idx.entries = none)

/-! # Theorems -/

/-! ## Association-list lemmas -/

theorem lookupA_insertA_self {α : Type} (k : String) (v : α) (l : List (String × α)) :
    lookupA k (insertA k v l) = some v := by
  induction l with
  | nil => simp [insertA, lookupA]
  | cons hd tl ih =>
    by_cases h : hd.1 = k <;> simp [insertA, lookupA, h, ih]

theorem lookupA_insertA_ne {α : Type} {k k' : String} (v : α) (l : List (String × α))
    (h : k' ≠ k) : lookupA k (insertA k' v l) = lookupA k l := by
  induction l with
  | nil => simp [insertA, lookupA, h]
  | cons hd tl ih =>
    by_cases h1 : hd.1 = k'
    · simp [insertA, lookupA, h1, h]
    · simp [insertA, lookupA, h1, ih]

theorem lookupA_eraseA_ne {α : Type} {k k' : String} (l : List (String × α))
    (h : k' ≠ k) : lookupA k (eraseA k' l) = lookupA k l := by
  induction l with
  | nil => simp [eraseA, lookupA]
  | cons hd tl ih =>
    obtain ⟨a, b⟩ := hd
    by_cases h1 : a = k'
    · subst h1
      simp [eraseA, lookupA, h]
    · by_cases h2 : a = k <;> simp [eraseA, lookupA, h1, h2, ih, Ne.symm h]

theorem lookupA_eraseA_of_none {α : Type} (k k' : String) (l : List (String × α))
    (h : lookupA k l = none) : lookupA k (eraseA k' l) = none := by
  induction l with
  | nil => simp [eraseA, lookupA]
  | cons hd tl ih =>
    obtain ⟨a, b⟩ := hd
    by_cases h1 : a = k
    · simp [lookupA, h1] at h
    · simp [lookupA, h1] at h
      by_cases h2 : a = k' <;> simp [eraseA, lookupA, h1, h2, ih h, h]

/-! ## Supporting lemmas about `loadIndex` and `pcSet` -/

/-- `loadIndex` with a memoised index is the identity. -/
theorem loadIndex_of_some (s : CacheState) (fs : CacheFS) (i : CacheIndex)
    (h : s.index = some i) : loadIndex s fs = (i, s, fs) := by
  unfold loadIndex
  rw [h]

/-- Whenever the memoised index can only hold the current format version,
`loadIndex` yields an index of the current format version. -/
theorem loadIndex_version (s : CacheState) (fs : CacheFS)
    (hver : ∀ i, s.index = some i → i.version = CACHE_VERSION) :
    (loadIndex s fs).1.version = CACHE_VERSION := by
  rcases hs : s.index with _ | idx
  · rcases hf : fs.indexFile with _ | oidx
    · simp [loadIndex, hs, hf]
    · rcases oidx with _ | parsed
      · simp [loadIndex, hs, hf]
      · by_cases hv : parsed.version = CACHE_VERSION <;>
          simp [loadIndex, hs, hf, hv, clearCache]
  · rw [loadIndex_of_some s fs idx hs]
    exact hver idx hs

/-- `loadIndex` memoises its result. -/
theorem loadIndex_state (s : CacheState) (fs : CacheFS) :
    (loadIndex s fs).2.1.index = some (loadIndex s fs).1 := by
  rcases hs : s.index with _ | idx
  · rcases hf : fs.indexFile with _ | oidx
    · simp [loadIndex, hs, hf]
    · rcases oidx with _ | parsed
      · simp [loadIndex, hs, hf]
      · by_cases hv : parsed.version = CACHE_VERSION <;>
          simp [loadIndex, hs, hf, hv, clearCache]
  · rw [loadIndex_of_some s fs idx hs, hs]

/-- Shape of a `set`: whatever eviction does, the final state holds an
index of the same format version whose entries contain the fresh binding
for the key, the dirty flag is raised, and the data file for the key's
filename holds the fresh payload. -/
theorem pcSet_eq (k : String) (v : PackageVersionData) (now : Nat)
    (s : CacheState) (fs : CacheFS) :
    pcSet k v now s fs =
      (⟨some ⟨(loadIndex s fs).1.version,
              insertA k ⟨getFilename k, now⟩ (pcSetBase s fs).1⟩, true⟩,
       ⟨(loadIndex s fs).2.2.indexFile,
        insertA (getFilename k) (some ⟨v.latestVersion, v.allVersions, now⟩)
          (pcSetBase s fs).2⟩) := by
  have hmem := loadIndex_state s fs
  simp only [pcSet, pcSetBase]
  by_cases h : (loadIndex s fs).1.entries.length ≥ MAX_CACHE_ENTRIES
  · simp only [if_pos h, evictOldest]
    rw [loadIndex_of_some _ _ _ hmem]
    rw [loadIndex_of_some _ _ _ rfl]
  · simp only [if_neg h]
    rw [loadIndex_of_some _ _ _ hmem]

/-! ## Claim C10 — the filename transform is not injective -/

/-- Claim C10: the persistent cache's filename transform is not injective:
`"@scope/name"` and `"scope/name"` both map to `"scope__name.json"`, so a
`set` for one overwrites the data file a later `get` for the other reads,
even though the two names keep separate index entries. -/
theorem C10_filename_collision :
    getFilename "@scope/name" = "scope__name.json" ∧
    getFilename "scope/name" = "scope__name.json" ∧
    (("@scope/name" : String) == "scope/name") = false ∧
    (pcGet "@scope/name" 0
        (pcSet "scope/name" ⟨"2.0.0", ["2.0.0"]⟩ 0
          (pcSet "@scope/name" ⟨"1.0.0", ["1.0.0"]⟩ 0 CacheState.fresh CacheFS.empty).1
          (pcSet "@scope/name" ⟨"1.0.0", ["1.0.0"]⟩ 0 CacheState.fresh CacheFS.empty).2).1
        (pcSet "scope/name" ⟨"2.0.0", ["2.0.0"]⟩ 0
          (pcSet "@scope/name" ⟨"1.0.0", ["1.0.0"]⟩ 0 CacheState.fresh CacheFS.empty).1
          (pcSet "@scope/name" ⟨"1.0.0", ["1.0.0"]⟩ 0 CacheState.fresh CacheFS.empty).2).2).1 =
      some ⟨"2.0.0", ["2.0.0"]⟩ ∧
    ((⟨"2.0.0", ["2.0.0"]⟩ : PackageVersionData) == ⟨"1.0.0", ["1.0.0"]⟩) = false ∧
    (pcStats
        (pcSet "scope/name" ⟨"2.0.0", ["2.0.0"]⟩ 0
          (pcSet "@scope/name" ⟨"1.0.0", ["1.0.0"]⟩ 0 CacheState.fresh CacheFS.empty).1
          (pcSet "@scope/name" ⟨"1.0.0", ["1.0.0"]⟩ 0 CacheState.fresh CacheFS.empty).2).1
        (pcSet "scope/name" ⟨"2.0.0", ["2.0.0"]⟩ 0
          (pcSet "@scope/name" ⟨"1.0.0", ["1.0.0"]⟩ 0 CacheState.fresh CacheFS.empty).1
          (pcSet "@scope/name" ⟨"1.0.0", ["1.0.0"]⟩ 0 CacheState.fresh CacheFS.empty).2).2).1 = 2 := by
  decide

/-! ## Claim C8 — index format-version mismatch triggers a full clear -/

/-- Claim C8: when the index file parses to a format version different from
`CACHE_VERSION`, the first access performs a full `clearCache` (every file
in the cache directory deleted, index reset to empty and version-tagged),
so `getStats()` reports 0 entries. -/
theorem C8_version_mismatch_clears (fs : CacheFS) (idx : CacheIndex)
    (hparse : fs.indexFile = some (some idx)) (hver : idx.version ≠ CACHE_VERSION) :
    (pcStats CacheState.fresh fs).1 = 0 ∧
    (pcStats CacheState.fresh fs).2.2 = CacheFS.empty ∧
    (pcStats CacheState.fresh fs).2.1 = ⟨some ⟨CACHE_VERSION, []⟩, true⟩ := by
  simp [pcStats, loadIndex, CacheState.fresh, hparse, hver, clearCache, CacheFS.empty]

theorem C8_version_mismatch_clears_witness :
    (pcStats CacheState.fresh
        ⟨some (some ⟨0, [("left-pad", ⟨"left-pad.json", 5⟩)]⟩),
         [("left-pad.json", some ⟨"1.3.0", ["1.3.0"], 5⟩)]⟩).1 = 0 ∧
    (pcStats CacheState.fresh
        ⟨some (some ⟨0, [("left-pad", ⟨"left-pad.json", 5⟩)]⟩),
         [("left-pad.json", some ⟨"1.3.0", ["1.3.0"], 5⟩)]⟩).2.2 = CacheFS.empty ∧
    (pcStats CacheState.fresh
        ⟨some (some ⟨0, [("left-pad", ⟨"left-pad.json", 5⟩)]⟩),
         [("left-pad.json", some ⟨"1.3.0", ["1.3.0"], 5⟩)]⟩).2.1 =
      ⟨some ⟨CACHE_VERSION, []⟩, true⟩ :=
  C8_version_mismatch_clears _ _ rfl (by decide)

/-! ## Claim C6 — expired entries: absent yes, file removal no -/

/-- Claim C6 counterexample: with an entry expired past the 24-hour disk
TTL, `get` returns absent (as claimed), but neither that `get` nor the next
`get` on the same key removes the per-key data file — the file is still on
disk after both calls, refuting the file-removal half of the claim. -/
theorem C6_counterexample :
    (pcGet "x" (DISK_CACHE_TTL + 1) CacheState.fresh c6InitialFS).1 = none ∧
    (pcGet "x" (DISK_CACHE_TTL + 1)
        (pcGet "x" (DISK_CACHE_TTL + 1) CacheState.fresh c6InitialFS).2.1
        (pcGet "x" (DISK_CACHE_TTL + 1) CacheState.fresh c6InitialFS).2.2).1 = none ∧
    lookupA "x.json"
        (pcGet "x" (DISK_CACHE_TTL + 1)
            (pcGet "x" (DISK_CACHE_TTL + 1) CacheState.fresh c6InitialFS).2.1
            (pcGet "x" (DISK_CACHE_TTL + 1) CacheState.fresh c6InitialFS).2.2).2.2.dataFiles =
      some (some ⟨"1.0.0", ["1.0.0"], 0⟩) := by
  decide

/-- Claim C6 as amended: a `get` on a key whose index entry is older than
the disk TTL returns absent and drops the index entry (marking the index
dirty), but leaves the file system — in particular the per-key data file —
untouched; no later `get` deletes it either. -/
theorem C6_amended (s : CacheState) (fs : CacheFS) (name : String) (e : IndexEntry) (now : Nat)
    (hload : lookupA name (loadIndex s fs).1.entries = some e)
    (hexp : now - e.timestamp > DISK_CACHE_TTL) :
    (pcGet name now s fs).1 = none ∧
    (pcGet name now s fs).2.2 = (loadIndex s fs).2.2 ∧
    (pcGet name now s fs).2.1 =
      ⟨some ⟨(loadIndex s fs).1.version, eraseA name (loadIndex s fs).1.entries⟩, true⟩ := by
  unfold pcGet
  simp [hload, hexp]

theorem C6_amended_witness :
    (pcGet "x" (DISK_CACHE_TTL + 1) CacheState.fresh c6InitialFS).1 = none ∧
    (pcGet "x" (DISK_CACHE_TTL + 1) CacheState.fresh c6InitialFS).2.2 =
      (loadIndex CacheState.fresh c6InitialFS).2.2 ∧
    (pcGet "x" (DISK_CACHE_TTL + 1) CacheState.fresh c6InitialFS).2.1 =
      ⟨some ⟨(loadIndex CacheState.fresh c6InitialFS).1.version,
             eraseA "x" (loadIndex CacheState.fresh c6InitialFS).1.entries⟩, true⟩ :=
  C6_amended CacheState.fresh c6InitialFS "x" ⟨"x.json", 0⟩ (DISK_CACHE_TTL + 1)
    (by decide) (by decide)

/-! ## Claim C9 — durability across instantiation -/

/-- Claim C9: `set(k, v)` followed by `flush()` on one instance, then a
fresh instance pointed at the same directory: `get(k)` returns `v`,
provided the disk TTL has not elapsed between write and read (the model is
the failure-free execution of the disk operations). -/
theorem C9_durability (s : CacheState) (fs : CacheFS) (k : String) (v : PackageVersionData)
    (t1 t2 : Nat)
    (hver : ∀ i, s.index = some i → i.version = CACHE_VERSION)
    (hfresh : t2 - t1 ≤ DISK_CACHE_TTL) :
    (pcGet k t2 CacheState.fresh
        (pcFlush (pcSet k v t1 s fs).1 (pcSet k v t1 s fs).2).2).1 = some v := by
  have hv := loadIndex_version s fs hver
  rw [pcSet_eq, hv]
  simp only [pcFlush, saveIndex]
  unfold pcGet
  simp only [loadIndex, CacheState.fresh]
  have hnotexp : ¬ (t2 - t1 > DISK_CACHE_TTL) := by omega
  simp [lookupA_insertA_self, hnotexp]

theorem C9_durability_witness :
    (pcGet "x" 10 CacheState.fresh
        (pcFlush
          (pcSet "x" ⟨"1.0.0", ["1.0.0"]⟩ 0 CacheState.fresh CacheFS.empty).1
          (pcSet "x" ⟨"1.0.0", ["1.0.0"]⟩ 0 CacheState.fresh CacheFS.empty).2).2).1 =
      some ⟨"1.0.0", ["1.0.0"]⟩ :=
  C9_durability CacheState.fresh CacheFS.empty "x" ⟨"1.0.0", ["1.0.0"]⟩ 0 10
    (by intro i h; simp [CacheState.fresh] at h) (by decide)

/-! ## Cache manager lemmas -/

/-- Reading back a key immediately after `cmSet` yields the value just
written (the memory tier hits with a zero-age timestamp). -/
theorem cmGet_cmSet_self (cm : CM) (k : String) (v : PackageVersionData) (now : Nat) :
    (cmGet (cmSet cm k v now) k now).1 = some v := by
  simp [cmGet, cmSet, lookupA_insertA_self, Nat.sub_self, CACHE_TTL]

/-! ## Claim C5 — the authoritative client caches only successes -/

/-- Claim C5 counterexample: with an empty cache and a failing registry
request, `fetchPackageFromRegistry` returns the unknown sentinel but
stores nothing: the memory tier stays empty, no data file is written, and
a subsequent cache lookup still misses — refuting the half of the claim
that says the failure sentinel is cached before returning. -/
theorem C5_counterexample :
    (fetchPackageFromRegistry (fun _ _ => true) (fun _ => NpmOutcome.failure) 0
        CM.emptyFresh "left-pad").1 = unknownSentinel ∧
    (fetchPackageFromRegistry (fun _ _ => true) (fun _ => NpmOutcome.failure) 0
        CM.emptyFresh "left-pad").2.memory = [] ∧
    (fetchPackageFromRegistry (fun _ _ => true) (fun _ => NpmOutcome.failure) 0
        CM.emptyFresh "left-pad").2.disk.2.dataFiles = [] ∧
    (cmGet (fetchPackageFromRegistry (fun _ _ => true) (fun _ => NpmOutcome.failure) 0
        CM.emptyFresh "left-pad").2 "left-pad" 0).1 = none := by
  decide

/-- Claim C5 as amended: on a cache miss, the authoritative client stores
the computed result via the cache manager before returning it only in the
success outcome (including the no-valid-versions case, whose result also
carries the `"unknown"` latest); in the failure outcome it returns the
unknown sentinel without storing it — the cache is exactly as the initial
lookup left it. -/
theorem C5_amended (le : String → String → Bool) (net : String → NpmOutcome) (now : Nat)
    (cm : CM) (name : String)
    (hmiss : (cmGet cm name now).1 = none) :
    (∀ vs, net name = NpmOutcome.success vs →
      (fetchPackageFromRegistry le net now cm name).2 =
        cmSet (cmGet cm name now).2 name (fetchPackageFromRegistry le net now cm name).1 now ∧
      (cmGet (fetchPackageFromRegistry le net now cm name).2 name now).1 =
        some (fetchPackageFromRegistry le net now cm name).1) ∧
    (net name = NpmOutcome.failure →
      (fetchPackageFromRegistry le net now cm name).1 = unknownSentinel ∧
      (fetchPackageFromRegistry le net now cm name).2 = (cmGet cm name now).2) := by
  constructor
  · intro vs hvs
    constructor
    · simp [fetchPackageFromRegistry, hmiss, hvs]
    · simp [fetchPackageFromRegistry, hmiss, hvs, cmGet_cmSet_self]
  · intro hfail
    simp [fetchPackageFromRegistry, hmiss, hfail]

theorem C5_amended_witness :
    (fetchPackageFromRegistry (fun _ _ => true) (fun _ => NpmOutcome.success ["1.0.0"]) 0
        CM.emptyFresh "left-pad").2 =
      cmSet (cmGet CM.emptyFresh "left-pad" 0).2 "left-pad"
        (fetchPackageFromRegistry (fun _ _ => true) (fun _ => NpmOutcome.success ["1.0.0"]) 0
          CM.emptyFresh "left-pad").1 0 ∧
    (cmGet (fetchPackageFromRegistry (fun _ _ => true)
        (fun _ => NpmOutcome.success ["1.0.0"]) 0 CM.emptyFresh "left-pad").2
        "left-pad" 0).1 =
      some (fetchPackageFromRegistry (fun _ _ => true)
        (fun _ => NpmOutcome.success ["1.0.0"]) 0 CM.emptyFresh "left-pad").1 :=
  (C5_amended (fun _ _ => true) (fun _ => NpmOutcome.success ["1.0.0"]) 0
    CM.emptyFresh "left-pad" (by decide)).1 ["1.0.0"] rfl

/-! ## Retry loop lemmas and claim C4 -/

/-- The retry loop makes at most one attempt per configured timeout, and
the i-th attempt passes the i-th timeout as both the headers-wait and the
body-read timeout. -/
theorem fetchLoop_trace (net : Nat → CdnAttemptOutcome) :
    ∀ (timeouts : List Nat) (attemptIdx : Nat),
      (fetchLoop net attemptIdx timeouts).2.length ≤ timeouts.length ∧
      (fetchLoop net attemptIdx timeouts).2 =
        (timeouts.take (fetchLoop net attemptIdx timeouts).2.length).map
          (fun t => (⟨t, t⟩ : AttemptRecord)) := by
  intro timeouts
  induction timeouts with
  | nil =>
    intro idx
    simp [fetchLoop]
  | cons t rest ih =>
    intro idx
    rcases hnet : net idx with vf | code | tr
    · simp [fetchLoop, hnet]
    · by_cases hr : (isRetryableStatus code && !rest.isEmpty) = true
      · have h2 := ih (idx + 1)
        constructor
        · simpa [fetchLoop, hnet, hr] using Nat.succ_le_succ h2.1
        · simp only [fetchLoop, hnet, hr, if_true, List.length_cons,
            List.take_succ_cons, List.map_cons]
          exact congrArg (List.cons ⟨t, t⟩) h2.2
      · simp [fetchLoop, hnet, hr]
    · by_cases hr : (tr && !rest.isEmpty) = true
      · have h2 := ih (idx + 1)
        constructor
        · simpa [fetchLoop, hnet, hr] using Nat.succ_le_succ h2.1
        · simp only [fetchLoop, hnet, hr, if_true, List.length_cons,
            List.take_succ_cons, List.map_cons]
          exact congrArg (List.cons ⟨t, t⟩) h2.2
      · simp [fetchLoop, hnet, hr]

/-- Claim C4: the CDN per-tag fetch makes at most N attempts where N is
the length of the (normalised) retry-timeout sequence, the i-th attempt
uses the i-th timeout for both the header-wait and body-read phases, the
normalised sequence is never empty, and in the concrete configuration of
two attempts with every attempt timing out exactly 2 attempts are made
and the package is delegated to the authoritative client. -/
theorem C4_retry_budget :
    (∀ (timeouts : List Nat) (net : Nat → CdnAttemptOutcome),
      (fetchPackageJsonFromJsdelivr timeouts net).2.length ≤ timeouts.length ∧
      (fetchPackageJsonFromJsdelivr timeouts net).2 =
        (timeouts.take (fetchPackageJsonFromJsdelivr timeouts net).2.length).map
          (fun t => (⟨t, t⟩ : AttemptRecord))) ∧
    (∀ configured : List Int, (retryTimeoutsFrom configured).isEmpty = false) ∧
    retryTimeoutsFrom [10, 20] = [10, 20] ∧
    fetchPackageJsonFromJsdelivr (retryTimeoutsFrom [10, 20])
        (fun _ => CdnAttemptOutcome.thrown true) =
      (none, [⟨10, 10⟩, ⟨20, 20⟩]) ∧
    (fetchFreshPackageData svTrivial (retryTimeoutsFrom [10, 20])
        (fun _ _ => CdnAttemptOutcome.thrown true) (fun _ _ => true)
        (fun _ => NpmOutcome.failure) 0 CM.emptyFresh "left-pad" none).2.2 =
      ⟨[⟨10, 10⟩, ⟨20, 20⟩], [], [["left-pad"]]⟩ := by
  refine ⟨fun timeouts net => fetchLoop_trace net timeouts 0, ?_, by decide, by decide, by decide⟩
  intro configured
  simp only [retryTimeoutsFrom]
  split
  · simp
  · next h => simpa using h

/-! ## Claim C7 — fallback exactly on latest-tag absence -/

/-- The fallback helper always records exactly its one delegation. -/
theorem fetchFromNpmFallback_calls (le : String → String → Bool)
    (npmNet : String → NpmOutcome) (now : Nat) (cm : CM) (packageName : String) :
    (fetchFromNpmFallback le npmNet now cm packageName).2.2 = [[packageName]] := by
  unfold fetchFromNpmFallback
  rcases hgo : getAllPackageData le npmNet now none [packageName] cm with e | ⟨results, cm2⟩
  · simp
  · rcases hl : lookupA packageName results with _ | result <;> simp [hl]

/-- When the latest-tag fetch yields a version, the fresh resolution
returns that version with the merged, latest-first version list. -/
theorem fetchFresh_of_latest_some (sv : SemverApi) (timeouts : List Nat)
    (cdnNet : String → Nat → CdnAttemptOutcome) (le : String → String → Bool)
    (npmNet : String → NpmOutcome) (now : Nat) (cm : CM) (packageName : String)
    (currentVersion : Option String) (v : String)
    (hl : (fetchPackageJsonFromJsdelivr timeouts (cdnNet "latest")).1 = some v) :
    ∃ vs,
      (fetchFreshPackageData sv timeouts cdnNet le npmNet now cm packageName
          currentVersion).1 = some ⟨v, orderedMergedVersions sv v vs⟩ := by
  simp only [fetchFreshPackageData, hl]
  exact ⟨_, rfl⟩

/-- Claim C7: within one package's resolution, the authoritative-registry
fallback is invoked exactly when the CDN fetch of the `latest` tag
returned absent after its retries; whenever the latest-tag fetch yields a
version string, no fallback call is made for that package. -/
theorem C7_fallback_only_on_latest_miss :
    ∀ (sv : SemverApi) (timeouts : List Nat) (cdnNet : String → Nat → CdnAttemptOutcome)
      (le : String → String → Bool) (npmNet : String → NpmOutcome) (now : Nat)
      (cm : CM) (packageName : String) (currentVersion : Option String),
      (fetchFreshPackageData sv timeouts cdnNet le npmNet now cm packageName
          currentVersion).2.2.fallbackCalls.isEmpty =
        ((fetchPackageJsonFromJsdelivr timeouts (cdnNet "latest")).1).isSome := by
  intro sv timeouts cdnNet le npmNet now cm packageName currentVersion
  unfold fetchFreshPackageData
  rcases h : (fetchPackageJsonFromJsdelivr timeouts (cdnNet "latest")).1 with _ | v
  · simp [h, fetchFromNpmFallback_calls]
  · simp [h]

/-! ## Claim C2 — the latest version is always first -/

/-- Claim C2: the CDN merge forces the literal latest-version string into
position 0 of `allVersions` for every comparator behaviour; consequently
every fresh CDN resolution whose latest-tag fetch succeeded yields data
with `allVersions.head? = latestVersion` and a non-empty list, and every
fresh authoritative resolution with non-empty `allVersions` has
`allVersions[0] = latestVersion` exactly. -/
theorem C2_latest_first :
    (∀ (sv : SemverApi) (latestVersion : String) (allVersions : List String),
      (orderedMergedVersions sv latestVersion allVersions).head? = some latestVersion) ∧
    (∀ (sv : SemverApi) (timeouts : List Nat) (cdnNet : String → Nat → CdnAttemptOutcome)
        (le : String → String → Bool) (npmNet : String → NpmOutcome) (now : Nat)
        (cm : CM) (packageName : String) (currentVersion : Option String),
      ((fetchPackageJsonFromJsdelivr timeouts (cdnNet "latest")).1).isSome →
      ∃ r, (fetchFreshPackageData sv timeouts cdnNet le npmNet now cm packageName
            currentVersion).1 = some r ∧
        r.allVersions.head? = some r.latestVersion ∧ r.allVersions ≠ []) ∧
    (∀ (le : String → String → Bool) (net : String → NpmOutcome) (now : Nat)
        (cm : CM) (packageName : String),
      (cmGet cm packageName now).1 = none →
      (fetchPackageFromRegistry le net now cm packageName).1.allVersions ≠ [] →
      (fetchPackageFromRegistry le net now cm packageName).1.allVersions.head? =
        some (fetchPackageFromRegistry le net now cm packageName).1.latestVersion) := by
  have hmerge : ∀ (sv : SemverApi) (latestVersion : String) (allVersions : List String),
      (orderedMergedVersions sv latestVersion allVersions).head? = some latestVersion := by
    intro sv latestVersion allVersions
    unfold orderedMergedVersions
    by_cases h : (sortVersionsDescending sv allVersions).head? = some latestVersion <;>
      simp [h]
  refine ⟨hmerge, ?_, ?_⟩
  · intro sv timeouts cdnNet le npmNet now cm packageName currentVersion hsome
    rw [Option.isSome_iff_exists] at hsome
    obtain ⟨v, hl⟩ := hsome
    obtain ⟨vs, heq⟩ := fetchFresh_of_latest_some sv timeouts cdnNet le npmNet now cm
      packageName currentVersion v hl
    refine ⟨⟨v, orderedMergedVersions sv v vs⟩, heq, hmerge sv v vs, ?_⟩
    intro hnil
    have h1 := hmerge sv v vs
    rw [show (⟨v, orderedMergedVersions sv v vs⟩ : PackageVersionData).allVersions =
      orderedMergedVersions sv v vs from rfl] at hnil
    rw [hnil] at h1
    simp at h1
  · intro le net now cm packageName hmiss hne
    simp only [fetchPackageFromRegistry, hmiss] at hne ⊢
    rcases hnet : net packageName with vs | _
    · simp only [hnet] at hne ⊢
      rcases hs : sortBy le (vs.filter isStrictVersion) with _ | ⟨v0, tl⟩
      · exact absurd hs hne
      · simp
    · simp [hnet, unknownSentinel] at hne

theorem C2_latest_first_witness :
    (fetchPackageFromRegistry (fun _ _ => true)
        (fun _ => NpmOutcome.success ["1.0.0", "2.0.0"]) 0 CM.emptyFresh
        "left-pad").1.allVersions.head? =
      some (fetchPackageFromRegistry (fun _ _ => true)
        (fun _ => NpmOutcome.success ["1.0.0", "2.0.0"]) 0 CM.emptyFresh
        "left-pad").1.latestVersion :=
  C2_latest_first.2.2 (fun _ _ => true) (fun _ => NpmOutcome.success ["1.0.0", "2.0.0"])
    0 CM.emptyFresh "left-pad" (by decide) (by decide)

/-! ## Batch structural lemmas -/

/-- Phase 1 produces exactly one task per input occurrence, in order. -/
theorem classify_names (now : Nat) :
    ∀ (names : List String) (cm : CM) (inflight : List String),
      ((classifyTasks now names cm inflight).1).map Prod.fst = names := by
  intro names
  induction names with
  | nil => intro cm inflight; simp [classifyTasks]
  | cons name rest ih =>
    intro cm inflight
    simp only [classifyTasks]
    rcases h : (cmGet cm name now).1 with _ | data
    · by_cases hc : name ∈ inflight <;> simp [h, hc, ih]
    · simp [h, ih]

/-- The in-flight list only grows during phase 1. -/
theorem classify_inflight_mono (now : Nat) :
    ∀ (names : List String) (cm : CM) (inflight : List String) (x : String),
      x ∈ inflight → x ∈ (classifyTasks now names cm inflight).2.2 := by
  intro names
  induction names with
  | nil => intro cm inflight x hx; simpa [classifyTasks] using hx
  | cons name rest ih =>
    intro cm inflight x hx
    simp only [classifyTasks]
    rcases h : (cmGet cm name now).1 with _ | data
    · by_cases hc : name ∈ inflight
      · simp only [h, hc, if_true]
        exact ih _ _ x hx
      · simp only [h, hc, if_false]
        exact ih _ _ x (List.mem_append_left _ hx)
    · simp only [h]
      exact ih _ _ x hx

/-- Every occurrence classified as owner or joiner has its name in the
final in-flight list (the owners list of the batch). -/
theorem classify_ownjoin_mem (now : Nat) :
    ∀ (names : List String) (cm : CM) (inflight : List String) (t : String × TaskClass),
      t ∈ (classifyTasks now names cm inflight).1 →
      (t.2 = TaskClass.own ∨ t.2 = TaskClass.joined) →
      t.1 ∈ (classifyTasks now names cm inflight).2.2 := by
  intro names
  induction names with
  | nil => intro cm inflight t ht _; simp [classifyTasks] at ht
  | cons name rest ih =>
    intro cm inflight t ht hoj
    simp only [classifyTasks] at ht ⊢
    rcases h : (cmGet cm name now).1 with _ | data
    · rw [h] at ht
      by_cases hc : name ∈ inflight
      · simp only [hc, if_true] at ht ⊢
        rcases List.mem_cons.mp ht with h1 | h1
        · subst h1
          exact classify_inflight_mono now rest _ _ name hc
        · exact ih _ _ t h1 hoj
      · simp only [hc, if_false] at ht ⊢
        rcases List.mem_cons.mp ht with h1 | h1
        · subst h1
          exact classify_inflight_mono now rest _ _ name
            (List.mem_append_right _ (List.mem_singleton.mpr rfl))
        · exact ih _ _ t h1 hoj
    · rw [h] at ht
      rcases List.mem_cons.mp ht with h1 | h1
      · subst h1
        rcases hoj with h2 | h2 <;> simp at h2
      · exact ih _ _ t h1 hoj

/-- The npm batch recursion with no progress callback always succeeds, and
its result map covers every processed name and everything already in the
accumulator. -/
theorem getAllPackageDataGo_ok (le : String → String → Bool) (net : String → NpmOutcome)
    (now : Nat) :
    ∀ (names : List String) (cm : CM) (completed : Nat)
      (acc : List (String × PackageVersionData)),
      ∃ res cm2,
        getAllPackageDataGo le net now none names cm completed acc =
          Except.ok (res, cm2) ∧
        ∀ n : String, (n ∈ names ∨ (lookupA n acc).isSome = true) →
          (lookupA n res).isSome = true := by
  intro names
  induction names with
  | nil =>
    intro cm completed acc
    refine ⟨acc, cm, rfl, ?_⟩
    intro n hn
    rcases hn with h | h
    · simp at h
    · exact h
  | cons name rest ih =>
    intro cm completed acc
    obtain ⟨res, cm2, heq, hprop⟩ := ih (fetchPackageFromRegistry le net now cm name).2
      (completed + 1) (insertA name (fetchPackageFromRegistry le net now cm name).1 acc)
    refine ⟨res, cm2, ?_, ?_⟩
    · simpa [getAllPackageDataGo] using heq
    · intro n hn
      apply hprop
      rcases hn with h | h
      · rcases List.mem_cons.mp h with h1 | h1
        · right
          subst h1
          simp [lookupA_insertA_self]
        · exact Or.inl h1
      · right
        by_cases he : name = n
        · subst he; simp [lookupA_insertA_self]
        · rwa [lookupA_insertA_ne _ _ he]

/-- The npm batch entry point with no progress callback always returns a
result map covering every input name. -/
theorem getAllPackageData_ok (le : String → String → Bool) (net : String → NpmOutcome)
    (now : Nat) (names : List String) (cm : CM) :
    ∃ res cm2,
      getAllPackageData le net now none names cm = Except.ok (res, cm2) ∧
      ∀ n ∈ names, (lookupA n res).isSome = true := by
  by_cases h : names.isEmpty = true
  · refine ⟨[], cm, ?_, ?_⟩
    · simp [getAllPackageData, h]
    · intro n hn
      rw [List.isEmpty_iff] at h
      subst h
      simp at hn
  · obtain ⟨res, cm2, heq, hprop⟩ := getAllPackageDataGo_ok le net now names cm 0 []
    refine ⟨res, cmFlush cm2, ?_, ?_⟩
    · simp [getAllPackageData, h, heq]
    · intro n hn
      exact hprop n (Or.inl hn)

/-- A fresh per-package resolution always produces a value: the CDN-merge
path by construction, the fallback path because the npm batch map covers
its one input name. -/
theorem fetchFresh_isSome (sv : SemverApi) (timeouts : List Nat)
    (cdnNet : String → Nat → CdnAttemptOutcome) (le : String → String → Bool)
    (npmNet : String → NpmOutcome) (now : Nat) (cm : CM) (packageName : String)
    (currentVersion : Option String) :
    ((fetchFreshPackageData sv timeouts cdnNet le npmNet now cm packageName
        currentVersion).1).isSome = true := by
  rcases hl : (fetchPackageJsonFromJsdelivr timeouts (cdnNet "latest")).1 with _ | v
  · simp only [fetchFreshPackageData, hl]
    unfold fetchFromNpmFallback
    obtain ⟨res, cm2, heq, hprop⟩ := getAllPackageData_ok le npmNet now [packageName] cm
    rw [heq]
    have hsome := hprop packageName (by simp)
    rcases hres : lookupA packageName res with _ | r
    · rw [hres] at hsome; simp at hsome
    · simp [hres]
  · obtain ⟨vs, heq⟩ := fetchFresh_of_latest_some sv timeouts cdnNet le npmNet now cm
      packageName currentVersion v hl
    simp [heq]

/-- Phase 2 resolves every owned name to an actual value. -/
theorem resolveOwned_isSome (sv : SemverApi) (timeouts : List Nat)
    (cdnNet : String → String → Nat → CdnAttemptOutcome) (le : String → String → Bool)
    (npmNet : String → NpmOutcome) (now : Nat) (cur : String → Option String) :
    ∀ (owned : List String) (cm : CM) (n : String), n ∈ owned →
      ∃ v, lookupA n (resolveOwned sv timeouts cdnNet le npmNet now cur owned cm).1 =
        some (some v) := by
  intro owned
  induction owned with
  | nil => intro cm n hn; simp at hn
  | cons name rest ih =>
    intro cm n hn
    simp only [resolveOwned]
    by_cases he : name = n
    · subst he
      have hs := fetchFresh_isSome sv timeouts (cdnNet name) le npmNet now cm name (cur name)
      rcases hr : (fetchFreshPackageData sv timeouts (cdnNet name) le npmNet now cm name
          (cur name)).1 with _ | v
      · rw [hr] at hs; simp at hs
      · exact ⟨v, by simp [lookupA, hr]⟩
    · rcases List.mem_cons.mp hn with h1 | h1
      · exact absurd h1.symm he
      · obtain ⟨v, hv⟩ := ih
          ((fetchFreshPackageData sv timeouts (cdnNet name) le npmNet now cm name
            (cur name)).2.1) n h1
        exact ⟨v, by simp [lookupA, he, hv]⟩

/-- Folding task values into the result map: if every task for the name
carries a value and the name occurs (or is already present), the final
map has a value for it. -/
theorem lookupA_fold_insert_isSome {β : Type} (f : String × β → Option PackageVersionData)
    (n : String) :
    ∀ (tasks : List (String × β)) (acc : List (String × PackageVersionData)),
      (∀ t ∈ tasks, t.1 = n → (f t).isSome = true) →
      ((∃ t ∈ tasks, t.1 = n) ∨ (lookupA n acc).isSome = true) →
      (lookupA n (tasks.foldl
        (fun m t =>
          match f t with
          | some data => insertA t.1 data m
          | none => m) acc)).isSome = true := by
  intro tasks
  induction tasks with
  | nil =>
    intro acc hall hbase
    rcases hbase with ⟨t, ht, _⟩ | h
    · simp at ht
    · simpa using h
  | cons t0 rest ih =>
    intro acc hall hbase
    simp only [List.foldl_cons]
    apply ih
    · intro t ht h1
      exact hall t (List.mem_cons_of_mem _ ht) h1
    · by_cases he : t0.1 = n
      · right
        have hsome := hall t0 (List.mem_cons_self _ _) he
        rcases hf : f t0 with _ | d
        · rw [hf] at hsome
          simp at hsome
        · simp only []
          rw [he]
          simp [lookupA_insertA_self]
      · rcases hbase with ⟨t, ht, hteq⟩ | h
        · rcases List.mem_cons.mp ht with h1 | h1
          · exact absurd (h1 ▸ hteq) he
          · exact Or.inl ⟨t, h1, hteq⟩
        · right
          rcases hf : f t0 with _ | d
          · simpa using h
          · simpa [lookupA_insertA_ne _ _ he] using h

/-- The CDN batch result map covers every input name. -/
theorem jsdelivrBatch_complete (sv : SemverApi) (timeouts : List Nat)
    (cdnNet : String → String → Nat → CdnAttemptOutcome) (le : String → String → Bool)
    (npmNet : String → NpmOutcome) (now : Nat) (names : List String)
    (cur : String → Option String) (cm0 : CM) (order : List Nat)
    (throws : Nat → Bool) (n : String) (hn : n ∈ names) :
    (lookupA n (getAllPackageDataFromJsdelivr sv timeouts cdnNet le npmNet now names cur
        cm0 order throws).results).isSome = true := by
  rcases hnames : names with _ | ⟨name0, rest⟩
  · subst hnames; simp at hn
  · subst hnames
    simp only [getAllPackageDataFromJsdelivr]
    apply lookupA_fold_insert_isSome
    · intro t ht hteq
      obtain ⟨tn, tc⟩ := t
      rcases tc with data | _ | _
      · simp [taskValue]
      · have hmem := classify_ownjoin_mem now (name0 :: rest) cm0 [] (tn, TaskClass.own)
          ht (Or.inl rfl)
        obtain ⟨v, hv⟩ := resolveOwned_isSome sv timeouts cdnNet le npmNet now cur
          ((classifyTasks now (name0 :: rest) cm0 []).2.2)
          ((classifyTasks now (name0 :: rest) cm0 []).2.1) tn hmem
        simp [taskValue, hv]
      · have hmem := classify_ownjoin_mem now (name0 :: rest) cm0 [] (tn, TaskClass.joined)
          ht (Or.inr rfl)
        obtain ⟨v, hv⟩ := resolveOwned_isSome sv timeouts cdnNet le npmNet now cur
          ((classifyTasks now (name0 :: rest) cm0 []).2.2)
          ((classifyTasks now (name0 :: rest) cm0 []).2.1) tn hmem
        simp [taskValue, hv]
    · left
      have hmap := classify_names now (name0 :: rest) cm0 []
      have : n ∈ ((classifyTasks now (name0 :: rest) cm0 []).1).map Prod.fst := by
        rw [hmap]; exact hn
      obtain ⟨t, ht, hteq⟩ := List.mem_map.mp this
      exact ⟨t, ht, hteq⟩

/-! ## Miss-stability: `notCached` is preserved by all cache traffic -/

theorem lookupA_foldl_eraseA_of_none {α β : Type} (g : β → String) (n : String) :
    ∀ (xs : List β) (l : List (String × α)), lookupA n l = none →
      lookupA n (xs.foldl (fun es e => eraseA (g e) es) l) = none := by
  intro xs
  induction xs with
  | nil => intro l h; simpa using h
  | cons x rest ih =>
    intro l h
    simp only [List.foldl_cons]
    exact ih _ (lookupA_eraseA_of_none _ _ _ h)

/-- A `get` whose key has no index entry returns absent and only memoises
the loaded index. -/
theorem pcGet_of_entry_none (k : String) (now : Nat) (s : CacheState) (fs : CacheFS)
    (h : lookupA k ((loadIndex s fs).1).entries = none) :
    pcGet k now s fs = (none, (loadIndex s fs).2.1, (loadIndex s fs).2.2) := by
  simp only [pcGet, h]

/-- A `get` for one key never changes what the index holds for another. -/
theorem pcGet_entries_other (k n : String) (hne : k ≠ n) (now : Nat) (s : CacheState)
    (fs : CacheFS) :
    lookupA n ((loadIndex (pcGet k now s fs).2.1 (pcGet k now s fs).2.2).1).entries =
      lookupA n ((loadIndex s fs).1).entries := by
  have hload := loadIndex_state s fs
  simp only [pcGet]
  rcases hk : lookupA k ((loadIndex s fs).1).entries with _ | entry
  · simp only []
    rw [loadIndex_of_some _ _ _ hload]
  · by_cases hexp : now - entry.timestamp > DISK_CACHE_TTL
    · simp only [if_pos hexp]
      rw [loadIndex_of_some _ _ _ rfl]
      exact lookupA_eraseA_ne _ hne
    · simp only [if_neg hexp]
      rcases hf : lookupA entry.file ((loadIndex s fs).2.2).dataFiles with _ | oentry
      · rw [loadIndex_of_some _ _ _ rfl]
        exact lookupA_eraseA_ne _ hne
      · rcases oentry with _ | cached
        · rw [loadIndex_of_some _ _ _ rfl]
          exact lookupA_eraseA_ne _ hne
        · rw [loadIndex_of_some _ _ _ hload]

/-- A cache-manager `get` for one key does not change the memory binding
of another. -/
theorem cmGet_memory_other (cm : CM) (k n : String) (now : Nat) (hne : k ≠ n) :
    lookupA n (cmGet cm k now).2.memory = lookupA n cm.memory := by
  unfold cmGet cmGetDisk
  rcases hm : lookupA k cm.memory with _ | mc
  · rcases hd : (pcGet k now cm.disk.1 cm.disk.2).1 with _ | dc <;>
      simp [hd, lookupA_insertA_ne _ _ hne]
  · by_cases hf : now - mc.2 < CACHE_TTL
    · simp [if_pos hf]
    · simp only [if_neg hf]
      rcases hd : (pcGet k now cm.disk.1 cm.disk.2).1 with _ | dc <;>
        simp [hd, lookupA_insertA_ne _ _ hne]

/-- A cache-manager `get` for one key does not change what the loaded
index holds for another. -/
theorem cmGet_entries_other (cm : CM) (k n : String) (now : Nat) (hne : k ≠ n) :
    lookupA n ((loadIndex (cmGet cm k now).2.disk.1 (cmGet cm k now).2.disk.2).1).entries =
      lookupA n ((loadIndex cm.disk.1 cm.disk.2).1).entries := by
  unfold cmGet cmGetDisk
  rcases hm : lookupA k cm.memory with _ | mc
  · rcases hd : (pcGet k now cm.disk.1 cm.disk.2).1 with _ | dc <;>
      (simp only [hd]; exact pcGet_entries_other k n hne now cm.disk.1 cm.disk.2)
  · by_cases hf : now - mc.2 < CACHE_TTL
    · simp [if_pos hf]
    · simp only [if_neg hf]
      rcases hd : (pcGet k now cm.disk.1 cm.disk.2).1 with _ | dc <;>
        (simp only [hd]; exact pcGet_entries_other k n hne now cm.disk.1 cm.disk.2)

theorem notCached_cmGet_other (cm : CM) (k n : String) (now : Nat) (hne : k ≠ n)
    (hnc : notCached cm n) : notCached (cmGet cm k now).2 n :=
  ⟨by rw [cmGet_memory_other cm k n now hne]; exact hnc.1,
   by rw [cmGet_entries_other cm k n now hne]; exact hnc.2⟩

/-- A lookup of a key absent from both tiers misses and leaves the key
absent from both tiers. -/
theorem cmGet_of_notCached (cm : CM) (n : String) (now : Nat) (hnc : notCached cm n) :
    (cmGet cm n now).1 = none ∧ notCached (cmGet cm n now).2 n := by
  obtain ⟨hmem, hidx⟩ := hnc
  have hpc := pcGet_of_entry_none n now cm.disk.1 cm.disk.2 hidx
  unfold cmGet cmGetDisk
  simp only [hmem, hpc]
  refine ⟨by simp, hmem, ?_⟩
  rw [loadIndex_of_some _ _ _ (loadIndex_state cm.disk.1 cm.disk.2)]
  exact hidx

/-- A cache-manager `set` of one key keeps another key absent. -/
theorem notCached_cmSet_other (cm : CM) (k n : String) (v : PackageVersionData)
    (now : Nat) (hne : k ≠ n) (hnc : notCached cm n) :
    notCached (cmSet cm k v now) n := by
  obtain ⟨hmem, hidx⟩ := hnc
  constructor
  · show lookupA n (insertA k (v, now) cm.memory) = none
    rw [lookupA_insertA_ne _ _ hne]
    exact hmem
  · show lookupA n ((loadIndex (pcSet k v now cm.disk.1 cm.disk.2).1
      (pcSet k v now cm.disk.1 cm.disk.2).2).1).entries = none
    rw [pcSet_eq]
    rw [loadIndex_of_some _ _ _ rfl]
    simp only []
    rw [lookupA_insertA_ne _ _ hne]
    unfold pcSetBase
    by_cases hcap : ((loadIndex cm.disk.1 cm.disk.2).1).entries.length ≥ MAX_CACHE_ENTRIES
    · simp only [if_pos hcap]
      exact lookupA_foldl_eraseA_of_none _ n _ _ hidx
    · simp only [if_neg hcap]
      exact hidx

/-- Flushing the persistent cache changes no lookup. -/
theorem cmFlush_entries (cm : CM) (n : String) :
    lookupA n ((loadIndex (cmFlush cm).disk.1 (cmFlush cm).disk.2).1).entries =
      lookupA n ((loadIndex cm.disk.1 cm.disk.2).1).entries := by
  unfold cmFlush pcFlush saveIndex
  rcases hs : cm.disk.1.index with _ | idx
  · simp only [hs]
  · rcases hd : cm.disk.1.dirty with _ | _
    · have : cm.disk.1 = ⟨some idx, false⟩ := by
        cases hcm : cm.disk.1
        rw [hcm] at hs hd
        simp at hs hd
        rw [hs, hd]
      rw [this]
    · have : cm.disk.1 = ⟨some idx, true⟩ := by
        cases hcm : cm.disk.1
        rw [hcm] at hs hd
        simp at hs hd
        rw [hs, hd]
      rw [this]
      simp only []
      rw [loadIndex_of_some _ _ _ rfl, loadIndex_of_some _ _ _ rfl]

theorem notCached_cmFlush (cm : CM) (n : String) (hnc : notCached cm n) :
    notCached (cmFlush cm) n :=
  ⟨hnc.1, by rw [cmFlush_entries]; exact hnc.2⟩

/-! ## Miss-stability through the registry clients -/

theorem notCached_fetchReg_other (le : String → String → Bool) (net : String → NpmOutcome)
    (now : Nat) (cm : CM) (k n : String) (hne : k ≠ n) (hnc : notCached cm n) :
    notCached (fetchPackageFromRegistry le net now cm k).2 n := by
  have h1 := notCached_cmGet_other cm k n now hne hnc
  unfold fetchPackageFromRegistry
  rcases hc : (cmGet cm k now).1 with _ | cached
  · rcases hnet : net k with vs | _
    · simp only [hc, hnet]
      exact notCached_cmSet_other _ k n _ now hne h1
    · simp only [hc, hnet]
      exact h1
  · simp only [hc]
    exact h1

theorem notCached_go_other (le : String → String → Bool) (net : String → NpmOutcome)
    (now : Nat) (n : String) :
    ∀ (names : List String) (cm : CM) (completed : Nat)
      (acc : List (String × PackageVersionData))
      (res : List (String × PackageVersionData)) (cm2 : CM),
      (∀ m ∈ names, m ≠ n) →
      getAllPackageDataGo le net now none names cm completed acc = Except.ok (res, cm2) →
      notCached cm n → notCached cm2 n := by
  intro names
  induction names with
  | nil =>
    intro cm completed acc res cm2 _ heq hnc
    simp only [getAllPackageDataGo] at heq
    cases heq
    exact hnc
  | cons name rest ih =>
    intro cm completed acc res cm2 hall heq hnc
    simp only [getAllPackageDataGo] at heq
    exact ih _ _ _ _ _ (fun m hm => hall m (List.mem_cons_of_mem _ hm)) heq
      (notCached_fetchReg_other le net now cm name n (hall name (List.mem_cons_self _ _)) hnc)

theorem notCached_getAll_other (le : String → String → Bool) (net : String → NpmOutcome)
    (now : Nat) (n : String) (names : List String) (cm : CM)
    (res : List (String × PackageVersionData)) (cm2 : CM)
    (hall : ∀ m ∈ names, m ≠ n)
    (heq : getAllPackageData le net now none names cm = Except.ok (res, cm2))
    (hnc : notCached cm n) : notCached cm2 n := by
  unfold getAllPackageData at heq
  by_cases hempty : names.isEmpty = true
  · simp only [hempty, if_true] at heq
    cases heq
    exact hnc
  · simp only [hempty, Bool.false_eq_true, if_false] at heq
    rcases hgo : getAllPackageDataGo le net now none names cm 0 [] with e | ⟨res3, cm3⟩
    · rw [hgo] at heq
      cases heq
    · rw [hgo] at heq
      cases heq
      exact notCached_cmFlush _ n (notCached_go_other le net now n names cm 0 [] _ _
        hall hgo hnc)

theorem notCached_fallback_other (le : String → String → Bool)
    (npmNet : String → NpmOutcome) (now : Nat) (cm : CM) (k n : String)
    (hne : k ≠ n) (hnc : notCached cm n) :
    notCached (fetchFromNpmFallback le npmNet now cm k).2.1 n := by
  unfold fetchFromNpmFallback
  rcases hgo : getAllPackageData le npmNet now none [k] cm with e | ⟨results, cm2⟩
  · simpa using hnc
  · have h2 := notCached_getAll_other le npmNet now n [k] cm results cm2
      (by intro m hm; rw [List.mem_singleton] at hm; subst hm; exact hne) hgo hnc
    rcases hl : lookupA k results with _ | r
    · simp only [hl]
      exact h2
    · simp only [hl]
      exact notCached_cmSet_other _ k n _ now hne h2

theorem notCached_fetchFresh_other (sv : SemverApi) (timeouts : List Nat)
    (cdnNetP : String → Nat → CdnAttemptOutcome) (le : String → String → Bool)
    (npmNet : String → NpmOutcome) (now : Nat) (cm : CM) (k n : String)
    (cur : Option String) (hne : k ≠ n) (hnc : notCached cm n) :
    notCached (fetchFreshPackageData sv timeouts cdnNetP le npmNet now cm k cur).2.1 n := by
  rcases hl : (fetchPackageJsonFromJsdelivr timeouts (cdnNetP "latest")).1 with _ | v
  · simp only [fetchFreshPackageData, hl]
    exact notCached_fallback_other le npmNet now cm k n hne hnc
  · simp only [fetchFreshPackageData, hl]
    exact notCached_cmSet_other cm k n _ now hne hnc

/-! ## The unknown sentinel propagates through the fallback chain -/

theorem fetchReg_sentinel (le : String → String → Bool) (net : String → NpmOutcome)
    (now : Nat) (cm : CM) (n : String) (hnc : notCached cm n)
    (hfail : net n = NpmOutcome.failure) :
    fetchPackageFromRegistry le net now cm n = (unknownSentinel, (cmGet cm n now).2) := by
  have h1 := (cmGet_of_notCached cm n now hnc).1
  unfold fetchPackageFromRegistry
  simp only [h1, hfail]

theorem go_sentinel (le : String → String → Bool) (net : String → NpmOutcome)
    (now : Nat) (n : String) (hfail : net n = NpmOutcome.failure) :
    ∀ (names : List String) (cm : CM) (completed : Nat)
      (acc : List (String × PackageVersionData))
      (res : List (String × PackageVersionData)) (cm2 : CM),
      getAllPackageDataGo le net now none names cm completed acc = Except.ok (res, cm2) →
      notCached cm n →
      (n ∈ names ∨ lookupA n acc = some unknownSentinel) →
      lookupA n res = some unknownSentinel := by
  intro names
  induction names with
  | nil =>
    intro cm completed acc res cm2 heq hnc hbase
    simp only [getAllPackageDataGo] at heq
    cases heq
    rcases hbase with h | h
    · simp at h
    · exact h
  | cons name rest ih =>
    intro cm completed acc res cm2 heq hnc hbase
    simp only [getAllPackageDataGo] at heq
    by_cases he : name = n
    · subst he
      rw [fetchReg_sentinel le net now cm name hnc hfail] at heq
      exact ih _ _ _ _ _ heq ((cmGet_of_notCached cm name now hnc).2)
        (Or.inr (lookupA_insertA_self _ _ _))
    · have hnc2 := notCached_fetchReg_other le net now cm name n he hnc
      apply ih _ _ _ _ _ heq hnc2
      rcases hbase with h | h
      · rcases List.mem_cons.mp h with h1 | h1
        · exact absurd h1.symm he
        · exact Or.inl h1
      · right
        rwa [lookupA_insertA_ne _ _ he]

theorem getAll_sentinel (le : String → String → Bool) (net : String → NpmOutcome)
    (now : Nat) (n : String) (names : List String) (cm : CM)
    (res : List (String × PackageVersionData)) (cm2 : CM)
    (hfail : net n = NpmOutcome.failure)
    (heq : getAllPackageData le net now none names cm = Except.ok (res, cm2))
    (hnc : notCached cm n) (hmem : n ∈ names) :
    lookupA n res = some unknownSentinel := by
  unfold getAllPackageData at heq
  by_cases hempty : names.isEmpty = true
  · rw [List.isEmpty_iff] at hempty
    subst hempty
    simp at hmem
  · simp only [hempty, Bool.false_eq_true, if_false] at heq
    rcases hgo : getAllPackageDataGo le net now none names cm 0 [] with e | ⟨res3, cm3⟩
    · rw [hgo] at heq
      cases heq
    · rw [hgo] at heq
      cases heq
      exact go_sentinel le net now n hfail names cm 0 [] _ _ hgo hnc (Or.inl hmem)

theorem fallback_sentinel (le : String → String → Bool) (npmNet : String → NpmOutcome)
    (now : Nat) (cm : CM) (n : String) (hnc : notCached cm n)
    (hfail : npmNet n = NpmOutcome.failure) :
    (fetchFromNpmFallback le npmNet now cm n).1 = some unknownSentinel := by
  unfold fetchFromNpmFallback
  rcases hgo : getAllPackageData le npmNet now none [n] cm with e | ⟨results, cm2⟩
  · obtain ⟨res, cm3, hok, _⟩ := getAllPackageData_ok le npmNet now [n] cm
    rw [hgo] at hok
    cases hok
  · have hs := getAll_sentinel le npmNet now n [n] cm results cm2 hfail hgo hnc
      (List.mem_singleton.mpr rfl)
    simp [hs]

theorem fetchFresh_sentinel (sv : SemverApi) (timeouts : List Nat)
    (cdnNetP : String → Nat → CdnAttemptOutcome) (le : String → String → Bool)
    (npmNet : String → NpmOutcome) (now : Nat) (cm : CM) (n : String)
    (cur : Option String) (hnc : notCached cm n)
    (hlat : (fetchPackageJsonFromJsdelivr timeouts (cdnNetP "latest")).1 = none)
    (hfail : npmNet n = NpmOutcome.failure) :
    (fetchFreshPackageData sv timeouts cdnNetP le npmNet now cm n cur).1 =
      some unknownSentinel := by
  simp only [fetchFreshPackageData, hlat]
  exact fallback_sentinel le npmNet now cm n hnc hfail

/-! ## Miss-stability through phase 1 and the sentinel through phase 2 -/

theorem notCached_classify (now : Nat) (n : String) :
    ∀ (names : List String) (cm : CM) (inflight : List String),
      notCached cm n → notCached (classifyTasks now names cm inflight).2.1 n := by
  intro names
  induction names with
  | nil => intro cm inflight hnc; simpa [classifyTasks] using hnc
  | cons name rest ih =>
    intro cm inflight hnc
    have hnc2 : notCached (cmGet cm name now).2 n := by
      by_cases he : name = n
      · subst he
        exact (cmGet_of_notCached cm name now hnc).2
      · exact notCached_cmGet_other cm name n now he hnc
    simp only [classifyTasks]
    rcases h : (cmGet cm name now).1 with _ | data
    · by_cases hc : name ∈ inflight
      · simp only [h, hc, if_true]
        exact ih _ _ hnc2
      · simp only [h, hc, if_false]
        exact ih _ _ hnc2
    · simp only [h]
      exact ih _ _ hnc2

theorem classify_notCached_tasks (now : Nat) (n : String) :
    ∀ (names : List String) (cm : CM) (inflight : List String),
      notCached cm n →
      ∀ t ∈ (classifyTasks now names cm inflight).1, t.1 = n →
        (t.2 = TaskClass.own ∨ t.2 = TaskClass.joined) := by
  intro names
  induction names with
  | nil => intro cm inflight _ t ht; simp [classifyTasks] at ht
  | cons name rest ih =>
    intro cm inflight hnc t ht hteq
    have hnc2 : notCached (cmGet cm name now).2 n := by
      by_cases he : name = n
      · subst he
        exact (cmGet_of_notCached cm name now hnc).2
      · exact notCached_cmGet_other cm name n now he hnc
    simp only [classifyTasks] at ht
    rcases h : (cmGet cm name now).1 with _ | data
    · rw [h] at ht
      by_cases hc : name ∈ inflight
      · simp only [hc, if_true] at ht
        rcases List.mem_cons.mp ht with h1 | h1
        · subst h1
          exact Or.inr rfl
        · exact ih _ _ hnc2 t h1 hteq
      · simp only [hc, if_false] at ht
        rcases List.mem_cons.mp ht with h1 | h1
        · subst h1
          exact Or.inl rfl
        · exact ih _ _ hnc2 t h1 hteq
    · rw [h] at ht
      rcases List.mem_cons.mp ht with h1 | h1
      · subst h1
        have hname : name = n := hteq
        subst hname
        have hmiss := (cmGet_of_notCached cm name now hnc).1
        rw [hmiss] at h
        cases h
      · exact ih _ _ hnc2 t h1 hteq

theorem classify_member_owned (now : Nat) (n : String) :
    ∀ (names : List String) (cm : CM) (inflight : List String),
      notCached cm n → (n ∈ names ∨ n ∈ inflight) →
      n ∈ (classifyTasks now names cm inflight).2.2 := by
  intro names
  induction names with
  | nil =>
    intro cm inflight _ hmem
    rcases hmem with h | h
    · simp at h
    · simpa [classifyTasks] using h
  | cons name rest ih =>
    intro cm inflight hnc hmem
    have hnc2 : notCached (cmGet cm name now).2 n := by
      by_cases he : name = n
      · subst he
        exact (cmGet_of_notCached cm name now hnc).2
      · exact notCached_cmGet_other cm name n now he hnc
    simp only [classifyTasks]
    by_cases he : name = n
    · subst he
      have hmiss := (cmGet_of_notCached cm name now hnc).1
      simp only [hmiss]
      by_cases hc : name ∈ inflight
      · simp only [hc, if_true]
        exact ih _ _ hnc2 (Or.inr hc)
      · simp only [hc, if_false]
        exact ih _ _ hnc2 (Or.inr (List.mem_append_right _ (List.mem_singleton.mpr rfl)))
    · have hmem2 : n ∈ rest ∨ n ∈ inflight := by
        rcases hmem with h | h
        · rcases List.mem_cons.mp h with h1 | h1
          · exact absurd h1.symm he
          · exact Or.inl h1
        · exact Or.inr h
      rcases h : (cmGet cm name now).1 with _ | data
      · by_cases hc : name ∈ inflight
        · simp only [h, hc, if_true]
          exact ih _ _ hnc2 hmem2
        · simp only [h, hc, if_false]
          rcases hmem2 with h1 | h1
          · exact ih _ _ hnc2 (Or.inl h1)
          · exact ih _ _ hnc2 (Or.inr (List.mem_append_left _ h1))
      · simp only [h]
        exact ih _ _ hnc2 hmem2

theorem resolveOwned_sentinel (sv : SemverApi) (timeouts : List Nat)
    (cdnNet : String → String → Nat → CdnAttemptOutcome) (le : String → String → Bool)
    (npmNet : String → NpmOutcome) (now : Nat) (cur : String → Option String)
    (n : String)
    (hlat : (fetchPackageJsonFromJsdelivr timeouts (cdnNet n "latest")).1 = none)
    (hfail : npmNet n = NpmOutcome.failure) :
    ∀ (owned : List String) (cm : CM), notCached cm n → n ∈ owned →
      lookupA n (resolveOwned sv timeouts cdnNet le npmNet now cur owned cm).1 =
        some (some unknownSentinel) := by
  intro owned
  induction owned with
  | nil => intro cm _ hmem; simp at hmem
  | cons name rest ih =>
    intro cm hnc hmem
    simp only [resolveOwned]
    by_cases he : name = n
    · subst he
      have hs := fetchFresh_sentinel sv timeouts (cdnNet name) le npmNet now cm name
        (cur name) hnc hlat hfail
      simp [lookupA, hs]
    · rcases List.mem_cons.mp hmem with h1 | h1
      · exact absurd h1.symm he
      · have hnc2 := notCached_fetchFresh_other sv timeouts (cdnNet name) le npmNet now cm
          name n (cur name) he hnc
        have := ih ((fetchFreshPackageData sv timeouts (cdnNet name) le npmNet now cm name
          (cur name)).2.1) hnc2 h1
        simp [lookupA, he, this]

/-- Folding task values into the result map, value form: when every task
for the name yields the same value, the final map binds the name to it. -/
theorem lookupA_fold_insert_eq {β : Type} (f : String × β → Option PackageVersionData)
    (n : String) (v : PackageVersionData) :
    ∀ (tasks : List (String × β)) (acc : List (String × PackageVersionData)),
      (∀ t ∈ tasks, t.1 = n → f t = some v) →
      ((∃ t ∈ tasks, t.1 = n) ∨ lookupA n acc = some v) →
      lookupA n (tasks.foldl
        (fun m t =>
          match f t with
          | some data => insertA t.1 data m
          | none => m) acc) = some v := by
  intro tasks
  induction tasks with
  | nil =>
    intro acc hall hbase
    rcases hbase with ⟨t, ht, _⟩ | h
    · simp at ht
    · simpa using h
  | cons t0 rest ih =>
    intro acc hall hbase
    simp only [List.foldl_cons]
    apply ih
    · intro t ht h1
      exact hall t (List.mem_cons_of_mem _ ht) h1
    · by_cases he : t0.1 = n
      · right
        have hsome := hall t0 (List.mem_cons_self _ _) he
        rw [hsome]
        simp only []
        rw [he]
        exact lookupA_insertA_self _ _ _
      · rcases hbase with ⟨t, ht, hteq⟩ | h
        · rcases List.mem_cons.mp ht with h1 | h1
          · exact absurd (h1 ▸ hteq) he
          · exact Or.inl ⟨t, h1, hteq⟩
        · right
          rcases hf : f t0 with _ | d
          · simpa using h
          · simpa [lookupA_insertA_ne _ _ he] using h

/-- The CDN batch maps a package that no source can resolve to the
unknown sentinel. -/
theorem jsdelivrBatch_sentinel (sv : SemverApi) (timeouts : List Nat)
    (cdnNet : String → String → Nat → CdnAttemptOutcome) (le : String → String → Bool)
    (npmNet : String → NpmOutcome) (now : Nat) (names : List String)
    (cur : String → Option String) (cm0 : CM) (order : List Nat)
    (throws : Nat → Bool) (n : String) (hn : n ∈ names)
    (hnc : notCached cm0 n)
    (hlat : (fetchPackageJsonFromJsdelivr timeouts (cdnNet n "latest")).1 = none)
    (hfail : npmNet n = NpmOutcome.failure) :
    lookupA n (getAllPackageDataFromJsdelivr sv timeouts cdnNet le npmNet now names cur
        cm0 order throws).results = some unknownSentinel := by
  rcases hnames : names with _ | ⟨name0, rest⟩
  · subst hnames; simp at hn
  · subst hnames
    have hres : lookupA n (resolveOwned sv timeouts cdnNet le npmNet now cur
        ((classifyTasks now (name0 :: rest) cm0 []).2.2)
        ((classifyTasks now (name0 :: rest) cm0 []).2.1)).1 =
        some (some unknownSentinel) :=
      resolveOwned_sentinel sv timeouts cdnNet le npmNet now cur n hlat hfail _ _
        (notCached_classify now n (name0 :: rest) cm0 [] hnc)
        (classify_member_owned now n (name0 :: rest) cm0 [] hnc (Or.inl hn))
    simp only [getAllPackageDataFromJsdelivr]
    apply lookupA_fold_insert_eq
    · intro t ht hteq
      have hclass := classify_notCached_tasks now n (name0 :: rest) cm0 [] hnc t ht hteq
      obtain ⟨tn, tc⟩ := t
      rcases tc with data | _ | _
      · rcases hclass with h2 | h2 <;> cases h2
      · simp only [taskValue]
        rw [show tn = n from hteq, hres]
        rfl
      · simp only [taskValue]
        rw [show tn = n from hteq, hres]
        rfl
    · left
      have hmap := classify_names now (name0 :: rest) cm0 []
      have hn2 : n ∈ ((classifyTasks now (name0 :: rest) cm0 []).1).map Prod.fst := by
        rw [hmap]; exact hn
      obtain ⟨t, ht, hteq⟩ := List.mem_map.mp hn2
      exact ⟨t, ht, hteq⟩

/-! ## Claim C1 — exception-totality and completeness of the entry points -/

/-- Claim C1 counterexample: the authoritative entry point is NOT total
under the documented programming-fault failure mode — a progress callback
that throws on its first invocation makes `getAllPackageData` itself
reject instead of returning a map (its callback invocation is not
defensively wrapped, unlike the CDN client's). -/
theorem C1_counterexample :
    getAllPackageData (fun _ _ => true) (fun _ => NpmOutcome.failure) 0
      (some (fun _ => true)) ["left-pad"] CM.emptyFresh = Except.error () := by
  rfl

/-- Claim C1 as amended: the CDN batch entry point returns, for every
input and every callback behaviour (including throwing callbacks, which
it disables), a map with an entry for every input name, mapping a package
resolvable by no source (not cached, CDN latest absent, authoritative
request failing) to the unknown sentinel; the authoritative entry point
does the same provided its progress callback is absent (or never throws),
but not in general. -/
theorem C1_amended :
    (∀ (sv : SemverApi) (timeouts : List Nat)
        (cdnNet : String → String → Nat → CdnAttemptOutcome)
        (le : String → String → Bool) (npmNet : String → NpmOutcome) (now : Nat)
        (names : List String) (cur : String → Option String) (cm0 : CM)
        (order : List Nat) (throws : Nat → Bool) (n : String), n ∈ names →
      (lookupA n (getAllPackageDataFromJsdelivr sv timeouts cdnNet le npmNet now names
          cur cm0 order throws).results).isSome = true) ∧
    (∀ (sv : SemverApi) (timeouts : List Nat)
        (cdnNet : String → String → Nat → CdnAttemptOutcome)
        (le : String → String → Bool) (npmNet : String → NpmOutcome) (now : Nat)
        (names : List String) (cur : String → Option String) (cm0 : CM)
        (order : List Nat) (throws : Nat → Bool) (n : String), n ∈ names →
      notCached cm0 n →
      (fetchPackageJsonFromJsdelivr timeouts (cdnNet n "latest")).1 = none →
      npmNet n = NpmOutcome.failure →
      lookupA n (getAllPackageDataFromJsdelivr sv timeouts cdnNet le npmNet now names
          cur cm0 order throws).results = some unknownSentinel) ∧
    (∀ (le : String → String → Bool) (npmNet : String → NpmOutcome) (now : Nat)
        (names : List String) (cm0 : CM),
      ∃ res cm2, getAllPackageData le npmNet now none names cm0 = Except.ok (res, cm2) ∧
        (∀ n ∈ names, (lookupA n res).isSome = true) ∧
        (∀ n ∈ names, notCached cm0 n → npmNet n = NpmOutcome.failure →
          lookupA n res = some unknownSentinel)) := by
  refine ⟨?_, ?_, ?_⟩
  · intro sv timeouts cdnNet le npmNet now names cur cm0 order throws n hn
    exact jsdelivrBatch_complete sv timeouts cdnNet le npmNet now names cur cm0 order
      throws n hn
  · intro sv timeouts cdnNet le npmNet now names cur cm0 order throws n hn hnc hlat hfail
    exact jsdelivrBatch_sentinel sv timeouts cdnNet le npmNet now names cur cm0 order
      throws n hn hnc hlat hfail
  · intro le npmNet now names cm0
    obtain ⟨res, cm2, heq, hcomp⟩ := getAllPackageData_ok le npmNet now names cm0
    refine ⟨res, cm2, heq, hcomp, ?_⟩
    intro n hn hnc hfail
    exact getAll_sentinel le npmNet now n names cm0 res cm2 hfail heq hnc hn

theorem C1_amended_witness :
    lookupA "left-pad" (getAllPackageDataFromJsdelivr svTrivial [10, 20]
        (fun _ _ _ => CdnAttemptOutcome.thrown true) (fun _ _ => true)
        (fun _ => NpmOutcome.failure) 0 ["left-pad"] (fun _ => none) CM.emptyFresh
        [0] (fun _ => false)).results = some unknownSentinel :=
  C1_amended.2.1 svTrivial [10, 20] (fun _ _ _ => CdnAttemptOutcome.thrown true)
    (fun _ _ => true) (fun _ => NpmOutcome.failure) 0 ["left-pad"] (fun _ => none)
    CM.emptyFresh [0] (fun _ => false) "left-pad" (List.mem_singleton.mpr rfl)
    (by constructor <;> decide) (by decide) rfl

/-! ## Counting lemmas for claim C3 -/

/-- A name enters the owners list at most once. -/
theorem classify_owned_count (now : Nat) (x : String) :
    ∀ (names : List String) (cm : CM) (inflight : List String),
      inflight.count x ≤ 1 →
      ((classifyTasks now names cm inflight).2.2).count x ≤ 1 := by
  intro names
  induction names with
  | nil => intro cm inflight h; simpa [classifyTasks] using h
  | cons name rest ih =>
    intro cm inflight h
    simp only [classifyTasks]
    rcases hg : (cmGet cm name now).1 with _ | data
    · by_cases hc : name ∈ inflight
      · simp only [hg, hc, if_true]
        exact ih _ _ h
      · simp only [hg, hc, if_false]
        apply ih
        rw [List.count_append]
        by_cases he : name = x
        · subst he
          have h0 : inflight.count name = 0 := List.count_eq_zero.mpr hc
          simp [h0]
        · have h0 : List.count x [name] = 0 := by
            rw [List.count_eq_zero, List.mem_singleton]
            exact fun hx => he hx.symm
          omega
    · simp only [hg]
      exact ih _ _ h

/-- A non-throwing progress callback is never disabled, so every event is
delivered. -/
theorem deliveredProgressGo_no_throw :
    ∀ (events : List (String × Nat × Nat)) (k : Nat),
      deliveredProgressGo (fun _ => false) k events = events := by
  intro events
  induction events with
  | nil => intro k; simp [deliveredProgressGo]
  | cons e rest ih => intro k; simp [deliveredProgressGo, ih]

/-- Reading a list back through its index range is the identity. -/
theorem range_map_getD {α : Type} (g : Nat → α) :
    ∀ (order : List Nat),
      (List.range order.length).map (fun k => g (order.getD k 0)) = order.map g := by
  intro order
  induction order with
  | nil => simp
  | cons i rest ih =>
    rw [List.length_cons, List.range_succ_eq_map, List.map_cons, List.map_map]
    simp only [List.getD_cons_zero]
    congr 1

theorem map_getD_range {α : Type} (d : α) :
    ∀ (l : List α), (List.range l.length).map (fun i => l.getD i d) = l := by
  intro l
  induction l with
  | nil => simp
  | cons a rest ih =>
    rw [List.length_cons, List.range_succ_eq_map, List.map_cons, List.map_map]
    simp only [List.getD_cons_zero]
    congr 1

/-- Under any completion order that is a permutation of the occurrence
indices, the progress events name each input occurrence exactly once. -/
theorem progress_count (names : List String) (order : List Nat)
    (hperm : order.Perm (List.range names.length)) (n : String) :
    ((progressEvents names order).map (fun e => e.1)).count n = names.count n := by
  unfold progressEvents
  rw [List.map_map]
  have hcomp : ((fun (e : String × Nat × Nat) => e.1) ∘
      (fun k => (names.getD (order.getD k 0) "", k + 1, names.length))) =
      fun k => names.getD (order.getD k 0) "" := rfl
  rw [hcomp, range_map_getD (fun i => names.getD i "") order]
  have hp2 : (order.map (fun i => names.getD i "")).Perm
      ((List.range names.length).map (fun i => names.getD i "")) := hperm.map _
  rw [hp2.count_eq, map_getD_range]

/-- Every progress event reports the full input count as its total. -/
theorem progress_total (names : List String) (order : List Nat) :
    ∀ e ∈ progressEvents names order, e.2.2 = names.length := by
  intro e he
  unfold progressEvents at he
  obtain ⟨k, _, hk⟩ := List.mem_map.mp he
  rw [← hk]

/-! ## Key-uniqueness lemmas -/

theorem lookupA_none_of_not_mem_keys {α : Type} (k : String) :
    ∀ (l : List (String × α)), k ∉ l.map Prod.fst → lookupA k l = none := by
  intro l
  induction l with
  | nil => intro _; rfl
  | cons hd tl ih =>
    intro h
    obtain ⟨a, b⟩ := hd
    simp only [List.map_cons, List.mem_cons] at h
    push_neg at h
    have h1 : ¬ a = k := fun hak => h.1 hak.symm
    simp only [lookupA, h1, if_false]
    exact ih h.2

theorem mem_keys_eraseA {α : Type} (k x : String) :
    ∀ (l : List (String × α)), x ∈ (eraseA k l).map Prod.fst → x ∈ l.map Prod.fst := by
  intro l
  induction l with
  | nil => intro h; simp [eraseA] at h
  | cons hd tl ih =>
    intro h
    obtain ⟨a, b⟩ := hd
    by_cases h1 : a = k
    · simp only [eraseA, h1, if_true] at h
      exact List.mem_cons_of_mem _ h
    · simp only [eraseA, h1, if_false, List.map_cons, List.mem_cons] at h
      rcases h with h2 | h2
      · exact List.mem_cons.mpr (Or.inl h2)
      · exact List.mem_cons_of_mem _ (ih h2)

theorem nodupKeys_eraseA {α : Type} (k : String) :
    ∀ (l : List (String × α)), keysUnique l → keysUnique (eraseA k l) := by
  intro l
  induction l with
  | nil => intro h; exact h
  | cons hd tl ih =>
    intro h
    obtain ⟨a, b⟩ := hd
    unfold keysUnique at h ⊢
    simp only [List.map_cons, List.nodup_cons] at h
    by_cases h1 : a = k
    · simp only [eraseA, h1, if_true]
      exact h.2
    · simp only [eraseA, h1, if_false, List.map_cons, List.nodup_cons]
      exact ⟨fun hmem => h.1 (mem_keys_eraseA k a tl hmem), ih h.2⟩

theorem lookupA_eraseA_self_of_nodup {α : Type} (k : String) :
    ∀ (l : List (String × α)), keysUnique l → lookupA k (eraseA k l) = none := by
  intro l
  induction l with
  | nil => intro _; rfl
  | cons hd tl ih =>
    intro h
    obtain ⟨a, b⟩ := hd
    unfold keysUnique at h
    simp only [List.map_cons, List.nodup_cons] at h
    by_cases h1 : a = k
    · simp only [eraseA, h1, if_true]
      subst h1
      exact lookupA_none_of_not_mem_keys a tl h.1
    · simp only [eraseA, h1, if_false, lookupA]
      exact ih h.2

/-! ## Hit- and miss-stability of `cmGet` at a fixed instant -/

/-- A `get` changes the loaded index at most by erasing its own key. -/
theorem pcGet_entries_char (k : String) (now : Nat) (s : CacheState) (fs : CacheFS) :
    ((loadIndex (pcGet k now s fs).2.1 (pcGet k now s fs).2.2).1).entries =
      ((loadIndex s fs).1).entries ∨
    ((loadIndex (pcGet k now s fs).2.1 (pcGet k now s fs).2.2).1).entries =
      eraseA k ((loadIndex s fs).1).entries := by
  have hload := loadIndex_state s fs
  simp only [pcGet]
  rcases hk : lookupA k ((loadIndex s fs).1).entries with _ | entry
  · left
    rw [loadIndex_of_some _ _ _ hload]
  · by_cases hexp : now - entry.timestamp > DISK_CACHE_TTL
    · right
      simp only [if_pos hexp]
      rw [loadIndex_of_some _ _ _ rfl]
    · simp only [if_neg hexp]
      rcases hf : lookupA entry.file ((loadIndex s fs).2.2).dataFiles with _ | oentry
      · right
        rw [loadIndex_of_some _ _ _ rfl]
      · rcases oentry with _ | cached
        · right
          rw [loadIndex_of_some _ _ _ rfl]
        · left
          rw [loadIndex_of_some _ _ _ hload]

theorem wfCM_cmGet (cm : CM) (k : String) (now : Nat) (h : wfCM cm) :
    wfCM (cmGet cm k now).2 := by
  unfold wfCM at h ⊢
  unfold cmGet cmGetDisk
  rcases hm : lookupA k cm.memory with _ | mc
  · rcases hd : (pcGet k now cm.disk.1 cm.disk.2).1 with _ | dc <;>
    · simp only [hd]
      rcases pcGet_entries_char k now cm.disk.1 cm.disk.2 with hc | hc
      · rw [hc]; exact h
      · rw [hc]; exact nodupKeys_eraseA k _ h
  · by_cases hf : now - mc.2 < CACHE_TTL
    · simp only [if_pos hf]
      exact h
    · simp only [if_neg hf]
      rcases hd : (pcGet k now cm.disk.1 cm.disk.2).1 with _ | dc <;>
      · simp only [hd]
        rcases pcGet_entries_char k now cm.disk.1 cm.disk.2 with hc | hc
        · rw [hc]; exact h
        · rw [hc]; exact nodupKeys_eraseA k _ h

/-- A fresh memory entry serves the lookup and leaves the state alone. -/
theorem memFresh_cmGet (cm : CM) (n : String) (v : PackageVersionData) (now : Nat)
    (h : memFresh cm n v now) : cmGet cm n now = (some v, cm) := by
  obtain ⟨ts, hl, hts⟩ := h
  unfold cmGet
  simp only [hl, if_pos hts]

/-- A hit leaves the memory tier holding a fresh entry for the key. -/
theorem cmGet_hit_memFresh (cm : CM) (n : String) (v : PackageVersionData) (now : Nat)
    (h : (cmGet cm n now).1 = some v) : memFresh (cmGet cm n now).2 n v now := by
  have hpos : 0 < CACHE_TTL := by decide
  unfold cmGet cmGetDisk at h ⊢
  rcases hm : lookupA n cm.memory with _ | mc
  · rcases hd : (pcGet n now cm.disk.1 cm.disk.2).1 with _ | dc
    · simp only [hm, hd] at h
      cases h
    · simp only [hm, hd] at h ⊢
      cases h
      exact ⟨now, lookupA_insertA_self _ _ _, by simpa using hpos⟩
  · by_cases hf : now - mc.2 < CACHE_TTL
    · simp only [hm, if_pos hf] at h ⊢
      cases h
      exact ⟨mc.2, by rw [hm], hf⟩
    · simp only [hm, if_neg hf] at h ⊢
      rcases hd : (pcGet n now cm.disk.1 cm.disk.2).1 with _ | dc
      · simp only [hd] at h
        cases h
      · simp only [hd] at h ⊢
        cases h
        exact ⟨now, lookupA_insertA_self _ _ _, by simpa using hpos⟩

/-- A fresh memory entry survives any other lookup at the same instant. -/
theorem memFresh_cmGet_other (cm : CM) (k n : String) (v : PackageVersionData) (now : Nat)
    (h : memFresh cm n v now) : memFresh (cmGet cm k now).2 n v now := by
  by_cases he : k = n
  · subst he
    rw [memFresh_cmGet cm k v now h]
    exact h
  · obtain ⟨ts, hl, hts⟩ := h
    exact ⟨ts, by rw [cmGet_memory_other cm k n now he]; exact hl, hts⟩

/-- A stabilised miss misses again and leaves the state alone. -/
theorem missStable_cmGet (cm : CM) (n : String) (now : Nat) (h : missStable cm n now) :
    cmGet cm n now = (none, cm) := by
  obtain ⟨hmem, idx, hidx, hlook⟩ := h
  have hli := loadIndex_of_some cm.disk.1 cm.disk.2 idx hidx
  have hpc : pcGet n now cm.disk.1 cm.disk.2 = (none, cm.disk.1, cm.disk.2) := by
    simp only [pcGet, hli, hlook]
  unfold cmGet cmGetDisk
  rcases hm : lookupA n cm.memory with _ | mc
  · simp [hpc]
  · have hstale := hmem mc hm
    simp [if_neg hstale, hpc]

/-- With a key-unique index, a `get` miss leaves the index entry for the
key definitively absent and the index memoised. -/
theorem pcGet_none_stable (n : String) (now : Nat) (s : CacheState) (fs : CacheFS)
    (hwf : keysUnique ((loadIndex s fs).1).entries)
    (h : (pcGet n now s fs).1 = none) :
    ∃ idx, (pcGet n now s fs).2.1.index = some idx ∧ lookupA n idx.entries = none := by
  have hload := loadIndex_state s fs
  simp only [pcGet] at h ⊢
  rcases hk : lookupA n ((loadIndex s fs).1).entries with _ | entry
  · exact ⟨(loadIndex s fs).1, hload, hk⟩
  · by_cases hexp : now - entry.timestamp > DISK_CACHE_TTL
    · simp only [if_pos hexp]
      exact ⟨_, rfl, lookupA_eraseA_self_of_nodup n _ hwf⟩
    · simp only [hk, if_neg hexp] at h ⊢
      rcases hf : lookupA entry.file ((loadIndex s fs).2.2).dataFiles with _ | oentry
      · exact ⟨_, rfl, lookupA_eraseA_self_of_nodup n _ hwf⟩
      · rcases oentry with _ | cached
        · exact ⟨_, rfl, lookupA_eraseA_self_of_nodup n _ hwf⟩
        · rw [hf] at h
          cases h

/-- A miss on a well-formed state stabilises: the next lookup of the same
key at the same instant also misses. -/
theorem cmGet_none_missStable (cm : CM) (n : String) (now : Nat) (hwf : wfCM cm)
    (h : (cmGet cm n now).1 = none) : missStable (cmGet cm n now).2 n now := by
  unfold wfCM at hwf
  unfold cmGet cmGetDisk at h ⊢
  rcases hm : lookupA n cm.memory with _ | mc
  · rcases hd : (pcGet n now cm.disk.1 cm.disk.2).1 with _ | dc
    · simp only [hm, hd] at h ⊢
      obtain ⟨idx, hsi, hli⟩ := pcGet_none_stable n now cm.disk.1 cm.disk.2 hwf hd
      refine ⟨?_, idx, hsi, hli⟩
      intro p hp
      rw [hm] at hp
      cases hp
    · simp only [hm, hd] at h
      cases h
  · by_cases hfr : now - mc.2 < CACHE_TTL
    · simp only [hm, if_pos hfr] at h
      cases h
    · simp only [hm, if_neg hfr] at h ⊢
      rcases hd : (pcGet n now cm.disk.1 cm.disk.2).1 with _ | dc
      · simp only [hd] at h ⊢
        obtain ⟨idx, hsi, hli⟩ := pcGet_none_stable n now cm.disk.1 cm.disk.2 hwf hd
        refine ⟨?_, idx, hsi, hli⟩
        intro p hp
        rw [hm] at hp
        cases hp
        exact hfr
      · simp only [hd] at h
        cases h

/-- A `get` leaves the state with a memoised index whose entries are the
old loaded entries, at most with its own key erased. -/
theorem pcGet_index_char (k : String) (now : Nat) (s : CacheState) (fs : CacheFS) :
    ∃ idx, (pcGet k now s fs).2.1.index = some idx ∧
      (idx.entries = ((loadIndex s fs).1).entries ∨
       idx.entries = eraseA k ((loadIndex s fs).1).entries) := by
  have hload := loadIndex_state s fs
  simp only [pcGet]
  rcases hk : lookupA k ((loadIndex s fs).1).entries with _ | entry
  · exact ⟨(loadIndex s fs).1, hload, Or.inl rfl⟩
  · by_cases hexp : now - entry.timestamp > DISK_CACHE_TTL
    · simp only [if_pos hexp]
      exact ⟨_, rfl, Or.inr rfl⟩
    · simp only [if_neg hexp]
      rcases hf : lookupA entry.file ((loadIndex s fs).2.2).dataFiles with _ | oentry
      · exact ⟨_, rfl, Or.inr rfl⟩
      · rcases oentry with _ | cached
        · exact ⟨_, rfl, Or.inr rfl⟩
        · exact ⟨(loadIndex s fs).1, hload, Or.inl rfl⟩

/-- A stabilised miss survives any other lookup at the same instant. -/
theorem missStable_cmGet_other (cm : CM) (k n : String) (now : Nat) (hne : k ≠ n)
    (h : missStable cm n now) : missStable (cmGet cm k now).2 n now := by
  obtain ⟨hmem, idx, hidx, hlook⟩ := h
  constructor
  · intro p hp
    rw [cmGet_memory_other cm k n now hne] at hp
    exact hmem p hp
  · have hli := loadIndex_of_some cm.disk.1 cm.disk.2 idx hidx
    have hdisk : ∃ idx2, (pcGet k now cm.disk.1 cm.disk.2).2.1.index = some idx2 ∧
        lookupA n idx2.entries = none := by
      obtain ⟨idx2, hsi, hent⟩ := pcGet_index_char k now cm.disk.1 cm.disk.2
      refine ⟨idx2, hsi, ?_⟩
      rcases hent with h1 | h1
      · rw [h1, hli]
        exact hlook
      · rw [h1, hli, lookupA_eraseA_ne _ hne]
        exact hlook
    unfold cmGet cmGetDisk
    rcases hm : lookupA k cm.memory with _ | mc
    · rcases hd : (pcGet k now cm.disk.1 cm.disk.2).1 with _ | dc <;>
        simp only [hd] <;> exact hdisk
    · by_cases hf : now - mc.2 < CACHE_TTL
      · simp only [if_pos hf]
        exact ⟨idx, hidx, hlook⟩
      · simp only [if_neg hf]
        rcases hd : (pcGet k now cm.disk.1 cm.disk.2).1 with _ | dc <;>
          simp only [hd] <;> exact hdisk

/-! ## Classification consistency -/

/-- When one name's value sits fresh in the memory tier, every occurrence
of that name in the batch classifies as a hit with that same value. -/
theorem classify_all_hit (now : Nat) (n : String) (v : PackageVersionData) :
    ∀ (names : List String) (cm : CM) (inflight : List String),
      memFresh cm n v now →
      ∀ t ∈ (classifyTasks now names cm inflight).1, t.1 = n →
        t.2 = TaskClass.hit v := by
  intro names
  induction names with
  | nil => intro cm inflight _ t ht; simp [classifyTasks] at ht
  | cons name rest ih =>
    intro cm inflight hmf t ht hteq
    simp only [classifyTasks] at ht
    by_cases he : name = n
    · subst he
      have hgeq := memFresh_cmGet cm name v now hmf
      have hg1 : (cmGet cm name now).1 = some v := by rw [hgeq]
      have hmf2 : memFresh (cmGet cm name now).2 name v now := by rw [hgeq]; exact hmf
      rw [hg1] at ht
      rcases List.mem_cons.mp ht with h1 | h1
      · subst h1; rfl
      · exact ih _ _ hmf2 t h1 hteq
    · have hmf2 := memFresh_cmGet_other cm name n v now hmf
      rcases hg : (cmGet cm name now).1 with _ | data
      · rw [hg] at ht
        by_cases hc : name ∈ inflight
        · simp only [hc, if_true] at ht
          rcases List.mem_cons.mp ht with h1 | h1
          · subst h1; exact absurd hteq he
          · exact ih _ _ hmf2 t h1 hteq
        · simp only [hc, if_false] at ht
          rcases List.mem_cons.mp ht with h1 | h1
          · subst h1; exact absurd hteq he
          · exact ih _ _ hmf2 t h1 hteq
      · rw [hg] at ht
        rcases List.mem_cons.mp ht with h1 | h1
        · subst h1; exact absurd hteq he
        · exact ih _ _ hmf2 t h1 hteq

/-- When one name's miss has stabilised, every occurrence of that name in
the batch classifies as owner or joiner (never a hit). -/
theorem classify_all_miss (now : Nat) (n : String) :
    ∀ (names : List String) (cm : CM) (inflight : List String),
      missStable cm n now →
      ∀ t ∈ (classifyTasks now names cm inflight).1, t.1 = n →
        (t.2 = TaskClass.own ∨ t.2 = TaskClass.joined) := by
  intro names
  induction names with
  | nil => intro cm inflight _ t ht; simp [classifyTasks] at ht
  | cons name rest ih =>
    intro cm inflight hms t ht hteq
    simp only [classifyTasks] at ht
    by_cases he : name = n
    · subst he
      have hgeq := missStable_cmGet cm name now hms
      have hg1 : (cmGet cm name now).1 = none := by rw [hgeq]
      have hms2 : missStable (cmGet cm name now).2 name now := by rw [hgeq]; exact hms
      rw [hg1] at ht
      by_cases hc : name ∈ inflight
      · simp only [hc, if_true] at ht
        rcases List.mem_cons.mp ht with h1 | h1
        · subst h1; exact Or.inr rfl
        · exact ih _ _ hms2 t h1 hteq
      · simp only [hc, if_false] at ht
        rcases List.mem_cons.mp ht with h1 | h1
        · subst h1; exact Or.inl rfl
        · exact ih _ _ hms2 t h1 hteq
    · have hms2 := missStable_cmGet_other cm name n now he hms
      rcases hg : (cmGet cm name now).1 with _ | data
      · rw [hg] at ht
        by_cases hc : name ∈ inflight
        · simp only [hc, if_true] at ht
          rcases List.mem_cons.mp ht with h1 | h1
          · subst h1; exact absurd hteq he
          · exact ih _ _ hms2 t h1 hteq
        · simp only [hc, if_false] at ht
          rcases List.mem_cons.mp ht with h1 | h1
          · subst h1; exact absurd hteq he
          · exact ih _ _ hms2 t h1 hteq
      · rw [hg] at ht
        rcases List.mem_cons.mp ht with h1 | h1
        · subst h1; exact absurd hteq he
        · exact ih _ _ hms2 t h1 hteq

/-- Classification is consistent per name on a well-formed initial state:
either every occurrence of the name is a hit with one common value, or
every occurrence is an owner or joiner. -/
theorem classify_consistent (now : Nat) (n : String) :
    ∀ (names : List String) (cm : CM) (inflight : List String), wfCM cm →
      (∃ v, ∀ t ∈ (classifyTasks now names cm inflight).1, t.1 = n →
        t.2 = TaskClass.hit v) ∨
      (∀ t ∈ (classifyTasks now names cm inflight).1, t.1 = n →
        (t.2 = TaskClass.own ∨ t.2 = TaskClass.joined)) := by
  intro names
  induction names with
  | nil =>
    intro cm inflight _
    right
    intro t ht
    simp [classifyTasks] at ht
  | cons name rest ih =>
    intro cm inflight hwf
    by_cases he : name = n
    · subst he
      rcases hg : (cmGet cm name now).1 with _ | v
      · right
        have hms := cmGet_none_missStable cm name now hwf hg
        intro t ht hteq
        simp only [classifyTasks] at ht
        rw [hg] at ht
        by_cases hc : name ∈ inflight
        · simp only [hc, if_true] at ht
          rcases List.mem_cons.mp ht with h1 | h1
          · subst h1; exact Or.inr rfl
          · exact classify_all_miss now name rest _ inflight hms t h1 hteq
        · simp only [hc, if_false] at ht
          rcases List.mem_cons.mp ht with h1 | h1
          · subst h1; exact Or.inl rfl
          · exact classify_all_miss now name rest _ _ hms t h1 hteq
      · left
        have hmf := cmGet_hit_memFresh cm name v now hg
        refine ⟨v, ?_⟩
        intro t ht hteq
        simp only [classifyTasks] at ht
        rw [hg] at ht
        rcases List.mem_cons.mp ht with h1 | h1
        · subst h1; rfl
        · exact classify_all_hit now name v rest _ inflight hmf t h1 hteq
    · have hwf2 := wfCM_cmGet cm name now hwf
      rcases hg : (cmGet cm name now).1 with _ | data
      · by_cases hc : name ∈ inflight
        · rcases ih ((cmGet cm name now).2) inflight hwf2 with ⟨v, hv⟩ | hmiss
          · left
            refine ⟨v, ?_⟩
            intro t ht hteq
            simp only [classifyTasks] at ht
            rw [hg] at ht
            simp only [hc, if_true] at ht
            rcases List.mem_cons.mp ht with h1 | h1
            · subst h1; exact absurd hteq he
            · exact hv t h1 hteq
          · right
            intro t ht hteq
            simp only [classifyTasks] at ht
            rw [hg] at ht
            simp only [hc, if_true] at ht
            rcases List.mem_cons.mp ht with h1 | h1
            · subst h1; exact absurd hteq he
            · exact hmiss t h1 hteq
        · rcases ih ((cmGet cm name now).2) (inflight ++ [name]) hwf2 with ⟨v, hv⟩ | hmiss
          · left
            refine ⟨v, ?_⟩
            intro t ht hteq
            simp only [classifyTasks] at ht
            rw [hg] at ht
            simp only [hc, if_false] at ht
            rcases List.mem_cons.mp ht with h1 | h1
            · subst h1; exact absurd hteq he
            · exact hv t h1 hteq
          · right
            intro t ht hteq
            simp only [classifyTasks] at ht
            rw [hg] at ht
            simp only [hc, if_false] at ht
            rcases List.mem_cons.mp ht with h1 | h1
            · subst h1; exact absurd hteq he
            · exact hmiss t h1 hteq
      · rcases ih ((cmGet cm name now).2) inflight hwf2 with ⟨v, hv⟩ | hmiss
        · left
          refine ⟨v, ?_⟩
          intro t ht hteq
          simp only [classifyTasks] at ht
          rw [hg] at ht
          rcases List.mem_cons.mp ht with h1 | h1
          · subst h1; exact absurd hteq he
          · exact hv t h1 hteq
        · right
          intro t ht hteq
          simp only [classifyTasks] at ht
          rw [hg] at ht
          rcases List.mem_cons.mp ht with h1 | h1
          · subst h1; exact absurd hteq he
          · exact hmiss t h1 hteq

/-- Claim C3: within one invocation of the CDN batch resolution on a
well-formed initial cache state, a name occurring N times in the input is
network-resolved at most once (the owners list counts it at most once, and
joiners share the owner's entry of the resolved map, so every occurrence
of the name observes the same value), while the progress callback fires
exactly N times for that name — once per occurrence — each invocation
carrying the full input count as its total. -/
theorem C3_coalescing (sv : SemverApi) (timeouts : List Nat)
    (cdnNet : String → String → Nat → CdnAttemptOutcome) (le : String → String → Bool)
    (npmNet : String → NpmOutcome) (now : Nat) (names : List String)
    (currentVersions : String → Option String) (cm0 : CM) (order : List Nat)
    (run : BatchRun) (n : String)
    (hwf : wfCM cm0) (hperm : order.Perm (List.range names.length))
    (hrun : run = getAllPackageDataFromJsdelivr sv timeouts cdnNet le npmNet now names
      currentVersions cm0 order (fun _ => false)) :
    run.resolvedNames.count n ≤ 1 ∧
    (run.progressInvocations.map (fun e => e.1)).count n = names.count n ∧
    (∀ e ∈ run.progressInvocations, e.2.2 = names.length) ∧
    (∀ t ∈ run.tasks, ∀ t' ∈ run.tasks, t.1 = n → t'.1 = n →
      taskValue run.resolved t = taskValue run.resolved t') := by
  subst hrun
  rcases names with _ | ⟨name0, rest⟩
  · refine ⟨by simp [getAllPackageDataFromJsdelivr], ?_, ?_, ?_⟩
    · simp [getAllPackageDataFromJsdelivr]
    · intro e he
      simp [getAllPackageDataFromJsdelivr] at he
    · intro t ht
      simp [getAllPackageDataFromJsdelivr] at ht
  · refine ⟨?_, ?_, ?_, ?_⟩
    · simp only [getAllPackageDataFromJsdelivr]
      exact classify_owned_count now n (name0 :: rest) cm0 [] (by simp)
    · simp only [getAllPackageDataFromJsdelivr, deliveredProgress]
      rw [deliveredProgressGo_no_throw]
      exact progress_count (name0 :: rest) order hperm n
    · simp only [getAllPackageDataFromJsdelivr, deliveredProgress]
      rw [deliveredProgressGo_no_throw]
      exact progress_total (name0 :: rest) order
    · simp only [getAllPackageDataFromJsdelivr]
      intro t ht t' ht' h1 h2
      rcases classify_consistent now n (name0 :: rest) cm0 [] hwf with ⟨v, hv⟩ | hmiss
      · obtain ⟨tn, tc⟩ := t
        obtain ⟨tn', tc'⟩ := t'
        have e1 : tc = TaskClass.hit v := hv ⟨tn, tc⟩ ht h1
        have e2 : tc' = TaskClass.hit v := hv ⟨tn', tc'⟩ ht' h2
        subst e1
        subst e2
        rfl
      · obtain ⟨tn, tc⟩ := t
        obtain ⟨tn', tc'⟩ := t'
        have hn1 : tn = n := h1
        have hn2 : tn' = n := h2
        rcases hmiss ⟨tn, tc⟩ ht h1 with e1 | e1 <;>
          rcases hmiss ⟨tn', tc'⟩ ht' h2 with e2 | e2 <;>
          subst e1 <;> subst e2 <;>
          simp only [taskValue] <;> rw [hn1, hn2]

/-- Concrete instantiation of C3: the duplicated input
`["left-pad", "left-pad"]` on the fresh cache state. -/
theorem C3_coalescing_witness :
    ((getAllPackageDataFromJsdelivr svTrivial [] (fun _ _ _ => CdnAttemptOutcome.thrown false)
        (fun _ _ => true) (fun _ => NpmOutcome.failure) 0 ["left-pad", "left-pad"]
        (fun _ => none) CM.emptyFresh [0, 1]
        (fun _ => false)).resolvedNames).count "left-pad" ≤ 1 ∧
    (((getAllPackageDataFromJsdelivr svTrivial [] (fun _ _ _ => CdnAttemptOutcome.thrown false)
        (fun _ _ => true) (fun _ => NpmOutcome.failure) 0 ["left-pad", "left-pad"]
        (fun _ => none) CM.emptyFresh [0, 1]
        (fun _ => false)).progressInvocations).map (fun e => e.1)).count "left-pad" =
      (["left-pad", "left-pad"]).count "left-pad" :=
  ⟨(C3_coalescing svTrivial [] (fun _ _ _ => CdnAttemptOutcome.thrown false)
      (fun _ _ => true) (fun _ => NpmOutcome.failure) 0 ["left-pad", "left-pad"]
      (fun _ => none) CM.emptyFresh [0, 1] _ "left-pad"
      (by unfold wfCM keysUnique; decide) (by decide) rfl).1,
   (C3_coalescing svTrivial [] (fun _ _ _ => CdnAttemptOutcome.thrown false)
      (fun _ _ => true) (fun _ => NpmOutcome.failure) 0 ["left-pad", "left-pad"]
      (fun _ => none) CM.emptyFresh [0, 1] _ "left-pad"
      (by unfold wfCM keysUnique; decide) (by decide) rfl).2.1⟩
